import Mathlib

/-!
# Verification of the `priority-beam-search` package

This file gives a shallow embedding of the two source components of the
repository — the bounded double-ended priority container `Beam` and the
search driver `Optimizer` (both in `src/beam.ts`) — and settles the frozen
claims C1–C10 about them.

Conventions of the embedding:
* TS `number` values used as heap indices / sizes become `Nat`; the beam
  capacity (`limit`) becomes `Option ℕ` (`none` = the `Infinity` default
  produced by the `Optimizer` constructor, `some n` a finite capacity).
* Comparator results become `ℤ`; `Math.sign` becomes `Int.sign`.
* Wall-clock times become `ℚ`; `totalTime`/`optimalTime` (which may be
  `Infinity`) become `WithTop ℚ`.  `Date.now()` readings are supplied by an
  ambient `clock : ℕ → ℚ` consulted in program order (one tick per call).
* The JS array backing the heap always satisfies `heap.length === size`
  (checked against every mutation in the source), so the beam state is just
  the list `heap`.  An assignment `heap[i] = v` with `i` in bounds is
  `List.set`; `heap[0] = e` on the empty array is an append.
* Loops are modelled with explicit fuel; all recursion is structural.
* Out-of-bounds reads (`heap[i]` with `i ≥ size`) never occur on the
  branches the source actually takes; the embedding makes each such read
  explicit via `List.get?` and behaves as a no-op on `none`.
-/

namespace PBS


/-! ### Kernel-reducible rational arithmetic

Batteries marks `Rat.add`, `Rat.sub` and `Rat.mul` `@[irreducible]`, so
terms built from them do not evaluate inside the kernel (`decide`/`rfl`).
The embedding of the driver therefore uses the following wrappers, each
proved equal to the corresponding field operation on `ℚ`. -/

/-- Kernel-reducible `a + b` on `ℚ`. -/
def qAdd (a b : ℚ) : ℚ :=
  mkRat (a.num * (b.den : ℤ) + b.num * (a.den : ℤ)) (a.den * b.den)

/-- Kernel-reducible `a - b` on `ℚ`. -/
def qSub (a b : ℚ) : ℚ :=
  mkRat (a.num * (b.den : ℤ) - b.num * (a.den : ℤ)) (a.den * b.den)

/-- Kernel-reducible `a * b` on `ℚ`. -/
def qMul (a b : ℚ) : ℚ := mkRat (a.num * b.num) (a.den * b.den)

/-- Kernel-reducible `a / b` on `ℚ`. -/
def qDiv (a b : ℚ) : ℚ :=
  mkRat (a.num * (b.den : ℤ) * Int.sign b.num) ((a.den : ℕ) * b.num.natAbs)

/-- Kernel-reducible `⌈a⌉` on `ℚ`. -/
def qCeil (a : ℚ) : ℤ := -((-a.num).fdiv (a.den : ℤ))

/-- Kernel-reducible cast `ℤ → ℚ`. -/
def intToQ (k : ℤ) : ℚ := mkRat k 1

/-- Structural (fuel-based) floor base-2 logarithm; agrees with
`Nat.log2` (proved below) but reduces inside the kernel. -/
def log2Aux : ℕ → ℕ → ℕ
  | 0, _ => 0
  | fuel + 1, n => if n ≥ 2 then log2Aux fuel (n / 2) + 1 else 0

/-- `Math.log2(i+1) & 1 === 0` of the source (`isMinLevel`): the level of
heap slot `i` (floor of the base-2 logarithm of `i+1`) is even, i.e. the
slot lies on a "min" level of the min-max heap. -/
def isMinLevel (i : ℕ) : Bool := log2Aux (i + 1) (i + 1) % 2 == 0

/-- The normalized comparator stored by the `Beam` constructor:
`(a, b) => Math.sign(compare(a, b))`. -/
def normCmp {T : Type} (ev : T → T → ℤ) : T → T → ℤ :=
  fun a b => (ev a b).sign

section BeamDefs

variable {T : Type}

/-- Exchange of the values at slots `i` and `j`; no-op if either index is
out of bounds (the source never swaps out of bounds). -/
def swapIdx (h : List T) (i j : ℕ) : List T :=
  match h.get? i, h.get? j with
  | some a, some b => (h.set i b).set j a
  | _, _ => h

/-- `Beam.getSmallestChild(i, GT)`: among the (up to two) children of slot
`i`, the index of the best one under the role comparison value `gt`
(`CMP.GT` of the caller's level).  Returns `(has, m)`. -/
def getSmallestChild (cmp : T → T → ℤ) (h : List T) (i : ℕ) (gt : ℤ) :
    Bool × ℕ :=
  let size := h.length
  let l := 2 * i + 1
  if l ≥ size then (false, l)
  else
    let r := l + 1
    if r ≥ size then (true, l)
    else
      match h.get? l, h.get? r with
      | some hl, some hr => (true, if cmp hl hr == gt then r else l)
      | _, _ => (true, l)

/-- `Beam.getSmallestDescendent(i, GT)`: the best-ranked entry among the
children and grandchildren of slot `i` as the source computes it.  Returns
`(has, isgc, m)`.  NOTE (faithful to the source): when the left child has
children of its own, the children of `i` themselves are not candidates —
only grandchildren are considered.  This is the slip behind claim C1. -/
def getSmallestDescendent (cmp : T → T → ℤ) (h : List T) (i : ℕ) (gt : ℤ) :
    Bool × Bool × ℕ :=
  let size := h.length
  let l := 2 * i + 1
  if l ≥ size then (false, false, l)
  else
    let r := l + 1
    if r ≥ size then (true, false, l)
    else
      let lres := getSmallestChild cmp h l gt
      if !lres.1 then
        (true, false,
          match h.get? l, h.get? r with
          | some hl, some hr => if cmp hl hr == gt then r else l
          | _, _ => l)
      else
        let rres := getSmallestChild cmp h r gt
        if !rres.1 then (true, true, lres.2)
        else
          (true, true,
            match h.get? lres.2, h.get? rres.2 with
            | some a, some b => if cmp a b == gt then rres.2 else lres.2
            | _, _ => lres.2)

/-- One unfolding step of the `while (true)` loop of `Beam.trickleDown`,
with the level roles `lt`/`gt` fixed at entry like the source's
destructured `[LT, GT]`.  The fuel argument only bounds the loop; `i`
strictly increases (to a grandchild), so `h.length + 1` fuel is ample. -/
def trickleDownAux (cmp : T → T → ℤ) (lt gt : ℤ) :
    ℕ → List T → ℕ → List T
  | 0, h, _ => h
  | fuel + 1, h, i =>
    let d := getSmallestDescendent cmp h i gt
    if !d.1 then h
    else
      let m := d.2.2
      match h.get? m, h.get? i with
      | some hm, some hi =>
        if cmp hm hi == lt then
          let h1 := (h.set i hm).set m hi
          if d.2.1 then
            let p := (m - 1) / 2
            let h2 :=
              match h1.get? p with
              | some hp =>
                if cmp hi hp == gt then (h1.set p hi).set m hp else h1
              | none => h1
            trickleDownAux cmp lt gt fuel h2 m
          else h1
        else h
      | _, _ => h

/-- `Beam.trickleDown(i)`. -/
def trickleDown (cmp : T → T → ℤ) (h : List T) (i : ℕ) : List T :=
  if isMinLevel i then trickleDownAux cmp (-1) 1 (h.length + 1) h i
  else trickleDownAux cmp 1 (-1) (h.length + 1) h i

/-- The grandparent loop at the bottom of `Beam.bubbleUp`, with the `LT`
role fixed by the prologue.  `i` strictly decreases, so fuel `i + 1` is
ample. -/
def bubbleUpAux (cmp : T → T → ℤ) (lt : ℤ) :
    ℕ → List T → ℕ → List T
  | 0, h, _ => h
  | fuel + 1, h, i =>
    if i < 3 then h
    else
      let gp := ((i - 1) / 2 - 1) / 2
      match h.get? i, h.get? gp with
      | some hi, some hp =>
        if cmp hi hp == lt then
          bubbleUpAux cmp lt fuel ((h.set i hp).set gp hi) gp
        else h
      | _, _ => h

/-- `Beam.bubbleUp(i)` (the source precondition `i > 0` holds at every
call site). -/
def bubbleUp (cmp : T → T → ℤ) (h : List T) (i : ℕ) : List T :=
  let p := (i - 1) / 2
  match h.get? i, h.get? p with
  | some hi, some hp =>
    let c := cmp hi hp
    if isMinLevel i then
      if c == 1 then bubbleUpAux cmp 1 (p + 1) ((h.set i hp).set p hi) p
      else bubbleUpAux cmp (-1) (i + 1) h i
    else if c == -1 then
      bubbleUpAux cmp (-1) (p + 1) ((h.set i hp).set p hi) p
    else bubbleUpAux cmp 1 (i + 1) h i
  | _, _ => h

/-- `Beam.maxIndex()`: the slot holding what the source takes to be the
worst retained element (the worse-ranked of the root's up-to-two
children). -/
def maxIndex (cmp : T → T → ℤ) (h : List T) : ℕ :=
  if h.length < 2 then 0
  else if h.length == 2 then 1
  else
    match h.get? 1, h.get? 2 with
    | some a, some b => if cmp a b == -1 then 2 else 1
    | _, _ => 1

/-- `k < limit` where `limit : Option ℕ` models the JS capacity
(`none` = `Infinity`, `some n` a finite value). -/
def natLtLim (k : ℕ) : Option ℕ → Bool
  | none => true
  | some n => k < n

/-- `Beam.push(e)` over the stored heap list; `cmp` is the normalized
comparator and `limit` the configured capacity. -/
def beamPush (cmp : T → T → ℤ) (limit : Option ℕ) (h : List T) (e : T) : List T :=
  if limit = some 0 then h
  else if h.length = 0 then h ++ [e]
  else if natLtLim h.length limit then bubbleUp cmp (h ++ [e]) h.length
  else if limit = some 1 then
    match h.get? 0 with
    | some h0 => if cmp e h0 == -1 then h.set 0 e else h
    | none => h
  else
    let maxI := maxIndex cmp h
    match h.get? maxI with
    | some hm =>
      if cmp e hm == -1 then
        trickleDown cmp (trickleDown cmp (h.set maxI e) maxI) 0
      else h
    | none => h

/-- `Beam.pop()`: returns the removed root (if any) and the new heap. -/
def beamPop (cmp : T → T → ℤ) (h : List T) : Option T × List T :=
  match h with
  | [] => (none, [])
  | x :: _ =>
    let size := h.length - 1
    if size > 0 then
      match h.get? size with
      | some lst => (some x, trickleDown cmp ((h.set 0 lst).take size) 0)
      | none => (some x, [])
    else (some x, [])

/-- Modelled from the spec: the `select` import from the `floyd-rivest`
package (not part of this repository's sources) — "a linear-time
order-statistic selection to partition the initial set so that exactly the
`capacity` best elements (under compare) occupy a prefix".  A full
insertion sort by the comparator satisfies that postcondition. -/
def insertCmp (cmp : T → T → ℤ) (x : T) : List T → List T
  | [] => [x]
  | y :: ys => if cmp x y == 1 then y :: insertCmp cmp x ys else x :: y :: ys

/-- Modelled from the spec (see `insertCmp`): sorting realises the
selection step used by the `Beam` constructor. -/
def selectSort (cmp : T → T → ℤ) : List T → List T
  | [] => []
  | x :: xs => insertCmp cmp x (selectSort cmp xs)

/-- The heap-construction loop of the `Beam` constructor:
`for (let i = size >> 1; i >= 0; i--) trickleDown(i)`. -/
def heapify (cmp : T → T → ℤ) (l : List T) : List T :=
  (List.range (l.length / 2 + 1)).reverse.foldl (trickleDown cmp) l

/-- The `Beam` constructor: normalize the comparator, select/truncate the
initial elements when they exceed the capacity, then heapify. -/
def mkBeamHeap (ev : T → T → ℤ) (limit : Option ℕ) (elements : List T) : List T :=
  let cmp := normCmp ev
  match limit with
  | none => heapify cmp elements
  | some n =>
    if elements.length > n then heapify cmp ((selectSort cmp elements).take n)
    else heapify cmp elements

/-- The `[0]` getter of `Beam` (the stored best element). -/
def beamFirst (h : List T) : Option T := h.head?

end BeamDefs

section DriverDefs

variable {T : Type}

/-- The two containers `Optimizer.run` can own, matching the TS
`SequentialAccess` interface: the bounded `Beam`, or the plain JS array
used in exhaustive mode (`[...init]`). -/
inductive Cont (T : Type) : Type
  | beam (heap : List T)
  | arr (l : List T)
deriving DecidableEq

/-- `SequentialAccess.length`. -/
def contLength : Cont T → ℕ
  | .beam h => h.length
  | .arr l => l.length

/-- `SequentialAccess.push` (one element): `Beam.push`, or `Array.push`
(append). -/
def contPush (cmp : T → T → ℤ) (limit : Option ℕ) : Cont T → T → Cont T
  | .beam h, e => .beam (beamPush cmp limit h e)
  | .arr l, e => .arr (l ++ [e])

/-- `SequentialAccess.pop`: `Beam.pop` (extract best), or `Array.pop`
(remove the last element). -/
def contPop (cmp : T → T → ℤ) : Cont T → Option T × Cont T
  | .beam h =>
    match beamPop cmp h with
    | (r, h2) => (r, .beam h2)
  | .arr l =>
    match l.getLast? with
    | some x => (some x, .arr l.dropLast)
    | none => (none, .arr l)

/-- The `[0]` accessor: beam root, or first array element. -/
def contFirst : Cont T → Option T
  | .beam h => beamFirst h
  | .arr l => l.head?

/-- The elements currently retained by a container (ghost view used only
in statements and proofs). -/
def contElems : Cont T → List T
  | .beam h => h
  | .arr l => l

/-- The runtime configuration `run` closes over: the three caller
functions plus the validated numeric tunables of the `Optimizer`
instance.  `Option` encodes the `Infinity` values the constructor can
produce (`none` = unbounded); `ratioQ` is `optimalTimeRatio`, always in
`[0,1]` after construction. -/
structure RunCfg (T : Type) : Type where
  extend : T → List T
  check : T → Bool
  ev : T → T → ℤ
  isOptimal : Option (T → Bool)
  beamLimit : Option ℕ
  turnTime : ℚ
  totalTime : Option ℚ
  maxSaved : Option ℕ
  bailLim : Option ℕ
  turnIntv : ℚ
  ratioQ : ℚ

/-- The mutable state of one invocation of `run`.  Fields `log` (every
candidate popped so far, in order) and `lastImp` (the candidate of the
most recent strict-improvement step) are ghost observers used only by
statements and proofs; the remaining fields are exactly the source's
local variables.  `tick` indexes the ambient clock. -/
structure RState (T : Type) : Type where
  pool : Cont T
  rep : T
  equivalents : List T
  activeTime : ℚ
  equivSize : ℕ
  nextLoopTime : ℚ
  optTime : Option ℚ
  bestTime : ℚ
  hasTop : Option T
  tick : ℕ
  log : List T
  lastImp : Option T
deriving DecidableEq

/-- Why the search resolved. -/
inductive RReason : Type
  | exhausted
  | timeLimit
  | optimalFound
  | bailed
deriving DecidableEq

/-- Result of scoring one complete candidate. -/
inductive StepRes (T : Type) : Type
  | resolve (s : RState T) (r : RReason)
  | next (s : RState T)

/-- `Set.add` on the equivalents set (JS `Set` insertion order, no
duplicates). -/
def addEquiv [DecidableEq T] (l : List T) (c : T) : List T :=
  if c ∈ l then l else l ++ [c]

/-- `k > lim` with `lim : Option ℕ` (`none` = `Infinity`, never
exceeded). -/
def natGtLim (k : ℕ) : Option ℕ → Bool
  | none => false
  | some n => k > n

/-- `a ≥ t` with `t : Option ℚ` (`none` = `Infinity`, never reached). -/
def qGeLim (a : ℚ) : Option ℚ → Bool
  | none => false
  | some t => a ≥ t

/-- The body of the driver's scoring step for a popped complete candidate
(the `cmp = evaluate(candidate, representativeBest)` block of `run`). -/
def processCandidate [DecidableEq T] (cfg : RunCfg T) (s : RState T) (c : T) :
    StepRes T :=
  let cmp := cfg.ev c s.rep
  if cmp < 0 then
    let s1 := { s with equivalents := [c], bestTime := s.activeTime,
                       lastImp := some c }
    let fire := match cfg.isOptimal with
      | some f => f c
      | none => false
    if fire then .resolve s1 .optimalFound
    else
      let s2 :=
        if cfg.ratioQ = 0 then s1
        else { s1 with optTime := some (qMul s1.activeTime (qSub 2 cfg.ratioQ)) }
      .next { s2 with rep := c }
  else if cmp = 0 ∧ natLtLim s.equivSize cfg.maxSaved then
    let s1 := { s with equivalents := addEquiv s.equivalents c,
                       equivSize := s.equivSize + 1 }
    if natGtLim s1.equivSize cfg.bailLim then .resolve s1 .bailed
    else .next s1
  else .next s

/-- Result of one turn of the inner `iter` loop. -/
inductive InnerRes (T : Type) : Type
  | resolve (s : RState T) (r : RReason)
  | suspend (s : RState T)
  | nofuel

/-- The `iter: do { … } while (true)` loop of `run`, for one scheduled
turn with the given `start` and wall-clock `limit = start + turnTime`.
Each recursive call is one pass through the loop body: drain a pending
expansion, then either finish (container empty), check the turn deadline,
or pop and process a candidate. -/
def runInner [DecidableEq T] (cfg : RunCfg T) (clock : ℕ → ℚ)
    (start limit : ℚ) : ℕ → RState T → InnerRes T
  | 0, _ => .nofuel
  | fuel + 1, s =>
    match s.hasTop with
    | some t =>
      runInner cfg clock start limit fuel
        { s with
          pool := (cfg.extend t).foldl
            (fun p c => contPush (normCmp cfg.ev) cfg.beamLimit p c) s.pool
          hasTop := none }
    | none =>
      if contLength s.pool = 0 then .resolve s .exhausted
      else
        let now := clock s.tick
        let s1 := { s with tick := s.tick + 1 }
        if now > limit then
          let s2 := { s1 with activeTime := qAdd s1.activeTime (qSub now start) }
          if qGeLim s2.activeTime cfg.totalTime
              || qGeLim s2.activeTime s2.optTime then
            .resolve s2 .timeLimit
          else .suspend s2
        else
          match contPop (normCmp cfg.ev) s1.pool with
          | (some c, p2) =>
            let s2 := { s1 with pool := p2, log := s1.log ++ [c] }
            if !(cfg.check c) then
              runInner cfg clock start limit fuel { s2 with hasTop := some c }
            else
              match processCandidate cfg s2 c with
              | .resolve s3 r => .resolve s3 r
              | .next s3 => runInner cfg clock start limit fuel s3
          | (none, _) => .nofuel

/-- Outcome of the whole driver loop. -/
inductive RunOut (T : Type) : Type
  | resolved (s : RState T) (r : RReason)
  | nofuel

/-- The repeatedly scheduled `loop` callback: one call per element of the
outer fuel.  A call before `nextLoopTime` is a no-op (the early `return`);
otherwise the cadence marker advances and one turn of the inner loop
runs. -/
def runOuter [DecidableEq T] (cfg : RunCfg T) (clock : ℕ → ℚ)
    (innerFuel : ℕ) : ℕ → RState T → RunOut T
  | 0, _ => .nofuel
  | fuel + 1, s =>
    let start := clock s.tick
    let s1 := { s with tick := s.tick + 1 }
    if start < s1.nextLoopTime then runOuter cfg clock innerFuel fuel s1
    else
      let s2 := { s1 with
        nextLoopTime := qAdd s1.nextLoopTime
          (qMul (intToQ (qCeil (qDiv (qSub start s1.nextLoopTime)
            cfg.turnIntv))) cfg.turnIntv) }
      match runInner cfg clock start (qAdd start cfg.turnTime) innerFuel s2 with
      | .resolve s3 r => .resolved s3 r
      | .suspend s3 => runOuter cfg clock innerFuel fuel s3
      | .nofuel => .nofuel

/-- The synchronous prologue of `run`: choose the container, reject an
empty initial set (the `throw`), read the first `Date.now()` into
`nextLoopTime`, and seed `representativeBest` from `partials[0]`.  The
second `.error` branch is unreachable (a non-empty container has a first
element; proved below). -/
def mkRunState (cfg : RunCfg T) (clock : ℕ → ℚ) (init : List T) :
    Except String (RState T) :=
  let pool0 : Cont T :=
    if cfg.isOptimal.isSome || cfg.beamLimit.isSome then
      .beam (mkBeamHeap cfg.ev cfg.beamLimit init)
    else .arr init
  if contLength pool0 = 0 then .error "Missing Initial States"
  else
    match contFirst pool0 with
    | some r0 =>
      .ok { pool := pool0, rep := r0, equivalents := [], activeTime := 0,
            equivSize := 0, nextLoopTime := clock 0, optTime := cfg.totalTime,
            bestTime := 0, hasTop := none, tick := 1, log := [],
            lastImp := none }
    | none => .error "Missing Initial States"

/-- `Optimizer.run(init)`: the synchronous prologue followed by the
scheduled loop (the immediate first call plus the interval callbacks,
`innerFuel`/`outerFuel` bounding the two loops). -/
def runOpt [DecidableEq T] (cfg : RunCfg T) (clock : ℕ → ℚ)
    (innerFuel outerFuel : ℕ) (init : List T) :
    Except String (RunOut T) :=
  (mkRunState cfg clock init).map (runOuter cfg clock innerFuel outerFuel)

/-- The final state and reason of a resolved run, if any. -/
def finalOf : Except String (RunOut T) → Option (RState T × RReason)
  | .ok (.resolved s r) => some (s, r)
  | _ => none

/-- The pair the promise resolves with: `[equivalents, activeTime]`. -/
def resolvedPair (r : Except String (RunOut T)) : Option (List T × ℚ) :=
  (finalOf r).map fun p => (p.1.equivalents, p.1.activeTime)

/-- The popped-candidate history of a resolved run (ghost). -/
def resolvedLog (r : Except String (RunOut T)) : Option (List T) :=
  (finalOf r).map fun p => p.1.log

/-- The state carried by a scoring-step result. -/
def stateOfStep : StepRes T → RState T
  | .resolve s _ => s
  | .next s => s

/-- Whether an `Except` result is a success. -/
def isOkB {E A : Type} : Except E A → Bool
  | .ok _ => true
  | .error _ => false

end DriverDefs

section CtorDefs

variable {T : Type}

/-- A JS `number` as the `Optimizer` constructor sees option values:
`NaN`, the two infinities, or a finite value (modelled as a rational). -/
inductive JSNum : Type
  | nan
  | inf
  | ninf
  | num (q : ℚ)
deriving DecidableEq

/-- `Number(x)` for an optional option value (`Number(undefined) = NaN`). -/
def numOf : Option JSNum → JSNum
  | none => .nan
  | some v => v

/-- `x > 0` in JS (`NaN > 0` is false, `Infinity > 0` is true). -/
def JSNum.gt0 : JSNum → Bool
  | .inf => true
  | .num q => q > 0
  | _ => false

/-- `isFinite(x)`. -/
def JSNum.finiteB : JSNum → Bool
  | .num _ => true
  | _ => false

/-- JS truthiness of a number (`NaN` and `0` are falsy). -/
def JSNum.truthy : JSNum → Bool
  | .nan => false
  | .num q => q ≠ 0
  | _ => true

/-- `x >= 0` in JS. -/
def JSNum.ge0 : JSNum → Bool
  | .inf => true
  | .num q => q ≥ 0
  | _ => false

/-- `x <= 1` in JS. -/
def JSNum.le1 : JSNum → Bool
  | .ninf => true
  | .num q => q ≤ 1
  | _ => false

/-- `Math.abs` (the finite case written kernel-reducibly; it equals
`|q|`). -/
def JSNum.absJ : JSNum → JSNum
  | .nan => .nan
  | .inf => .inf
  | .ninf => .inf
  | .num q => .num (if q < 0 then -q else q)

/-- `Math.min` (propagates `NaN`). -/
def jsMin : JSNum → JSNum → JSNum
  | .nan, _ => .nan
  | _, .nan => .nan
  | .ninf, _ => .ninf
  | _, .ninf => .ninf
  | .inf, b => b
  | a, .inf => a
  | .num p, .num q => .num (if p ≤ q then p else q)

/-- JS division.  In the constructor it is only applied to a finite
positive `turnTime` and a finite `utilization` in `(0, 1]`; the other
cases follow the IEEE conventions (without distinguishing `-0`). -/
def jsDiv : JSNum → JSNum → JSNum
  | .nan, _ => .nan
  | _, .nan => .nan
  | .inf, .inf => .nan
  | .inf, .ninf => .nan
  | .ninf, .inf => .nan
  | .ninf, .ninf => .nan
  | .inf, .num q => if q ≥ 0 then .inf else .ninf
  | .ninf, .num q => if q ≥ 0 then .ninf else .inf
  | .num _, .inf => .num 0
  | .num _, .ninf => .num 0
  | .num p, .num q =>
    if q = 0 then (if p > 0 then .inf else if p < 0 then .ninf else .nan)
    else .num (qDiv p q)

/-- The recognized options of the `Optimizer` constructor
(`OptimizerOptions<T>`); `none` = the key is absent.  `optimalTimeR`
models the `optimalTimeRatio` key. -/
structure OptOptions (T : Type) : Type where
  isOptimal : Option (T → Bool) := none
  beamLimit : Option JSNum := none
  turnTime : Option JSNum := none
  totalTime : Option JSNum := none
  maxSavedEquivalents : Option JSNum := none
  equivBailLimit : Option JSNum := none
  utilization : Option JSNum := none
  optimalTimeR : Option JSNum := none

/-- The validated fields the constructor stores.  `optimalTimeR` models
the stored `optimalTimeRatio`. -/
structure OptConfig (T : Type) : Type where
  isOptimal : Option (T → Bool)
  beamLimit : JSNum
  turnTime : JSNum
  totalTime : JSNum
  maxSavedEquivalents : JSNum
  equivBailLimit : JSNum
  turnIntv : JSNum
  optimalTimeR : JSNum

/-- The intermediate `const utilization = Math.min(Math.abs(
options.utilization || 0.5), 1)` of the constructor. -/
def utilizationVal {T : Type} (o : OptOptions T) : JSNum :=
  let raw : JSNum :=
    match o.utilization with
    | none => .num (mkRat 1 2)
    | some v => if v.truthy then v else .num (mkRat 1 2)
  jsMin raw.absJ (.num 1)

/-- The `Optimizer` constructor's defensive validation of every tunable
(lines 245–273 of `beam.ts`). -/
def mkOptConfig (o : OptOptions T) : OptConfig T :=
  let bl := numOf o.beamLimit
  let tt := numOf o.turnTime
  let tot := numOf o.totalTime
  let turnTime := if tt.gt0 && tt.finiteB then tt else .num 30
  let r := numOf o.optimalTimeR
  { isOptimal := o.isOptimal
    beamLimit := if bl.gt0 then bl else .inf
    turnTime := turnTime
    totalTime := if tot.gt0 then tot else .inf
    maxSavedEquivalents :=
      match o.maxSavedEquivalents with
      | some v => if v.truthy then v else .num 0
      | none => .num 0
    equivBailLimit :=
      match o.equivBailLimit with
      | some v => v
      | none => .inf
    turnIntv := jsDiv turnTime (utilizationVal o)
    optimalTimeR := if r.ge0 && r.le1 then r else .num (mkRat 33 50) }

/-- The spec's substitution rule for `utilization`, as the spec words it:
"utilization → clamped into [0,1], default 0.5".  Used only to compare the
spec's table against the code's actual behaviour (claim C8). -/
def specClampUtilization (u : Option ℚ) : ℚ :=
  match u with
  | none => mkRat 1 2
  | some q => max 0 (min q 1)

end CtorDefs

section PropDefs

variable {T : Type}

/-- `k ≤ lim` (`lim : Option ℕ`, `none` = `Infinity`): the capacity/size
bounds of the claims. -/
def fitsLim (k : ℕ) : Option ℕ → Prop
  | none => True
  | some n => k ≤ n

/-- The comparator contract of the spec: `ev` defines a strict weak
ordering via the sign of its result (`< 0` strictly better, `= 0` tied,
`> 0` strictly worse). -/
structure IsSWO (ev : T → T → ℤ) : Prop where
  sign_flip : ∀ a b, (ev a b).sign = -((ev b a).sign)
  lt_trans : ∀ a b c, ev a b < 0 → ev b c < 0 → ev a c < 0
  eq_trans : ∀ a b c, ev a b = 0 → ev b c = 0 → ev a c = 0

/-- States reachable from the initial set by repeatedly expanding
incomplete states — exactly the states the driver loop can ever pop. -/
inductive ReachI (cfg : RunCfg T) (init : List T) : T → Prop
  | base {x : T} : x ∈ init → ReachI cfg init x
  | step {x y : T} : ReachI cfg init x → cfg.check x = false →
      y ∈ cfg.extend x → ReachI cfg init y

/-- The driver fields the global invariants depend on (everything except
clock bookkeeping and timing counters). -/
structure Core (T : Type) : Type where
  pool : Cont T
  rep : T
  equivalents : List T
  equivSize : ℕ
  hasTop : Option T
  log : List T
  lastImp : Option T

/-- Projection of a run state onto its invariant-relevant fields. -/
def coreOf (s : RState T) : Core T :=
  ⟨s.pool, s.rep, s.equivalents, s.equivSize, s.hasTop, s.log, s.lastImp⟩

/-- The "best found so far" of a state: the candidate of the most recent
strict improvement, or the initial representative when none occurred. -/
def bestOf (s : RState T) : T := s.lastImp.getD s.rep

/-- All states currently "owed" to the search from state `s`: already
popped, retained in the container, or produced by the pending
expansion. -/
def asetOf (cfg : RunCfg T) (s : RState T) : List T :=
  s.log ++ contElems s.pool ++
    (match s.hasTop with
     | some t => cfg.extend t
     | none => [])

end PropDefs


section OpDefs

variable {T : Type}

/-- One public operation on a `Beam`. -/
inductive BeamOp (T : Type) : Type
  | push (e : T)
  | pop

/-- Apply one operation to the stored heap. -/
def applyOp (cmp : T → T → ℤ) (limit : Option ℕ) (h : List T) :
    BeamOp T → List T
  | .push e => beamPush cmp limit h e
  | .pop => (beamPop cmp h).2

/-- Apply a sequence of push/pop operations. -/
def applyOps (cmp : T → T → ℤ) (limit : Option ℕ) (h : List T)
    (ops : List (BeamOp T)) : List T :=
  ops.foldl (applyOp cmp limit) h

end OpDefs

section ConcreteDefs

/-- The comparator of the spec's concrete scenarios: numeric difference
(`(a, b) => a - b`; smaller is better). -/
def evSub : ℤ → ℤ → ℤ := fun a b => a - b

/-- The reversed numeric comparator (`(a, b) => b - a`; larger is
better), used by witnesses that need a complete state to improve on the
initial representative. -/
def evFlip : ℤ → ℤ → ℤ := fun a b => b - a

/-- A clock that always reads 0: no turn ever exceeds its deadline, so a
terminating search completes within the first scheduled turn. -/
def zeroClock : ℕ → ℚ := fun _ => 0

/-- Claim C3's scenario: `expand(n) = {n+1}` for `n < 3`, `check(n) =
(n == 3)`, `compare = numeric difference`, capacity 2, remaining options
at their constructor defaults (`turnInterval = 30 / 0.5 = 60`,
`optimalTimeRatio = 0.66`). -/
def cfgC3 : RunCfg ℤ where
  extend := fun n => if n < 3 then [n + 1] else []
  check := fun n => n == 3
  ev := evSub
  isOptimal := none
  beamLimit := some 2
  turnTime := 30
  totalTime := none
  maxSaved := some 0
  bailLim := none
  turnIntv := 60
  ratioQ := mkRat 33 50

/-- Claim C4's counterexample scenario: exhaustive mode (no oracle,
unbounded capacity, unbounded total time, other options at their
defaults); `expand(0) = {1, 2}`, `expand(1) = {5}`, states 1 and 2
complete, numeric-difference comparator. -/
def cfgC4 : RunCfg ℤ where
  extend := fun n => if n == 0 then [1, 2] else if n == 1 then [5] else []
  check := fun n => n == 1 || n == 2
  ev := evSub
  isOptimal := none
  beamLimit := none
  turnTime := 30
  totalTime := none
  maxSaved := some 0
  bailLim := none
  turnIntv := 60
  ratioQ := mkRat 33 50

/-- Claim C4's witness scenario: as `cfgC4` but with the reversed
comparator (so the complete states improve on the initial representative)
and unbounded `maxSavedEquivalents`. -/
def cfgC4w : RunCfg ℤ where
  extend := fun n => if n == 0 then [1, 2] else if n == 1 then [5] else []
  check := fun n => n == 1 || n == 2
  ev := evFlip
  isOptimal := none
  beamLimit := none
  turnTime := 30
  totalTime := none
  maxSaved := none
  bailLim := none
  turnIntv := 60
  ratioQ := mkRat 33 50

/-- Claim C5's counterexample scenario: an always-true optimality oracle,
`expand(0) = {5}`, `check(n) = (n == 5)`, numeric-difference comparator
(the complete state 5 scores worse than the initial representative 0). -/
def cfgC5 : RunCfg ℤ where
  extend := fun n => if n == 0 then [5] else []
  check := fun n => n == 5
  ev := evSub
  isOptimal := some (fun _ => true)
  beamLimit := none
  turnTime := 30
  totalTime := none
  maxSaved := some 0
  bailLim := none
  turnIntv := 60
  ratioQ := mkRat 33 50

/-- Claim C6's counterexample scenario: `maxSavedEquivalents = 0`, one
complete state 3 strictly better (reversed comparator) than the initial
representative 0. -/
def cfgC6 : RunCfg ℤ where
  extend := fun n => if n == 0 then [3] else []
  check := fun n => n == 3
  ev := evFlip
  isOptimal := none
  beamLimit := some 2
  turnTime := 30
  totalTime := none
  maxSaved := some 0
  bailLim := none
  turnIntv := 60
  ratioQ := mkRat 33 50

end ConcreteDefs

/-!
## Theorems

Everything below is a theorem (or a claim's counterexample/witness); the
definitions above are complete.
-/
namespace IsSWO

variable {T : Type} {ev : T → T → ℤ}

theorem self_eq (h : IsSWO ev) (a : T) : ev a a = 0 := by
  have hf := h.sign_flip a a
  have h2 : (ev a a).sign = 0 := by omega
  exact Int.sign_eq_zero_iff_zero.mp h2

theorem lt_iff_gt (h : IsSWO ev) (a b : T) : ev a b < 0 ↔ 0 < ev b a := by
  have hf := h.sign_flip a b
  constructor
  · intro hab
    have h1 : (ev a b).sign = -1 := Int.sign_eq_neg_one_iff_neg.mpr hab
    have h2 : (ev b a).sign = 1 := by omega
    exact Int.sign_eq_one_iff_pos.mp h2
  · intro hba
    have h1 : (ev b a).sign = 1 := Int.sign_eq_one_iff_pos.mpr hba
    have h2 : (ev a b).sign = -1 := by omega
    exact Int.sign_eq_neg_one_iff_neg.mp h2

theorem eq_symm (h : IsSWO ev) {a b : T} (hab : ev a b = 0) : ev b a = 0 := by
  have hf := h.sign_flip a b
  rw [hab] at hf
  simp only [Int.sign_zero] at hf
  exact Int.sign_eq_zero_iff_zero.mp (by omega)

theorem lt_of_lt_of_eq (h : IsSWO ev) {a b c : T}
    (hab : ev a b < 0) (hbc : ev b c = 0) : ev a c < 0 := by
  rcases lt_trichotomy (ev a c) 0 with h1 | h1 | h1
  · exact h1
  · have h2 : ev c a = 0 := h.eq_symm h1
    have h3 : ev b a = 0 := h.eq_trans b c a hbc h2
    have h4 : ev a b = 0 := h.eq_symm h3
    omega
  · have h2 : ev c a < 0 := (h.lt_iff_gt c a).mpr h1
    have h3 : ev c b < 0 := h.lt_trans c a b h2 hab
    have h4 : 0 < ev b c := (h.lt_iff_gt c b).mp h3
    omega

theorem lt_of_eq_of_lt (h : IsSWO ev) {a b c : T}
    (hab : ev a b = 0) (hbc : ev b c < 0) : ev a c < 0 := by
  rcases lt_trichotomy (ev a c) 0 with h1 | h1 | h1
  · exact h1
  · have h2 : ev c a = 0 := h.eq_symm h1
    have h3 : ev c b = 0 := h.eq_trans c a b h2 hab
    have h4 : ev b c = 0 := h.eq_symm h3
    omega
  · have h2 : ev c a < 0 := (h.lt_iff_gt c a).mpr h1
    have h3 : ev b a < 0 := h.lt_trans b c a hbc h2
    have h4 : 0 < ev a b := (h.lt_iff_gt b a).mp h3
    omega

theorem ge_of_ge_of_le (h : IsSWO ev) {e w x : T}
    (he : 0 ≤ ev e w) (hx : ev x w ≤ 0) : 0 ≤ ev e x := by
  by_contra hc
  push_neg at hc
  rcases lt_or_eq_of_le hx with h1 | h1
  · have := h.lt_trans e x w hc h1
    omega
  · have := h.lt_of_lt_of_eq hc h1
    omega

theorem gt_of_ge_of_lt (h : IsSWO ev) {x r c : T}
    (hx : 0 ≤ ev x r) (hc : ev c r < 0) : 0 < ev x c := by
  by_contra hcon
  push_neg at hcon
  rcases lt_or_eq_of_le hcon with h1 | h1
  · have := h.lt_trans x c r h1 hc
    omega
  · have := h.lt_of_eq_of_lt h1 hc
    omega

theorem le_of_eq_of_ge (h : IsSWO ev) {x r y : T}
    (hx : ev x r = 0) (hy : 0 ≤ ev y r) : ev x y ≤ 0 := by
  by_contra hcon
  push_neg at hcon
  have h1 : ev y x < 0 := (h.lt_iff_gt y x).mpr hcon
  have h2 : ev y r < 0 := h.lt_of_lt_of_eq h1 hx
  omega

end IsSWO

theorem swo_evSub : IsSWO evSub := by
  refine ⟨?_, ?_, ?_⟩
  · intro a b
    show (a - b).sign = -((b - a).sign)
    rw [show b - a = -(a - b) by ring, Int.sign_neg]
    ring
  · intro a b c
    simp only [evSub]
    omega
  · intro a b c
    simp only [evSub]
    omega

theorem swo_evFlip : IsSWO evFlip := by
  refine ⟨?_, ?_, ?_⟩
  · intro a b
    show (b - a).sign = -((a - b).sign)
    rw [show a - b = -(b - a) by ring, Int.sign_neg]
    ring
  · intro a b c
    simp only [evFlip]
    omega
  · intro a b c
    simp only [evFlip]
    omega

section BeamLengthLemmas

variable {T : Type}

theorem trickleDownAux_length (cmp : T → T → ℤ) (lt gt : ℤ) :
    ∀ fuel (h : List T) i,
      (trickleDownAux cmp lt gt fuel h i).length = h.length := by
  intro fuel
  induction fuel with
  | zero => intro h i; rfl
  | succ f ih =>
    intro h i
    rw [trickleDownAux]
    split
    · rfl
    · lift_lets
      extract_lets m
      split
      case _ hm hi heq1 heq2 =>
        split
        · lift_lets
          extract_lets p h1 h2
          split
          · rw [ih]
            have hh1 : h1.length = h.length := by simp [h1]
            have hh2 : h2.length = h1.length := by
              simp only [h2]
              split
              · split
                · simp
                · rfl
              · rfl
            omega
          · simp [h1]
        · rfl
      case _ => rfl

theorem trickleDown_length (cmp : T → T → ℤ) (h : List T) (i : ℕ) :
    (trickleDown cmp h i).length = h.length := by
  rw [trickleDown]
  split
  · exact trickleDownAux_length cmp (-1) 1 (h.length + 1) h i
  · exact trickleDownAux_length cmp 1 (-1) (h.length + 1) h i

theorem bubbleUpAux_length (cmp : T → T → ℤ) (lt : ℤ) :
    ∀ fuel (h : List T) i,
      (bubbleUpAux cmp lt fuel h i).length = h.length := by
  intro fuel
  induction fuel with
  | zero => intro h i; rfl
  | succ f ih =>
    intro h i
    rw [bubbleUpAux]
    split
    · rfl
    · lift_lets
      extract_lets gp
      split
      case _ hi hp heq1 heq2 =>
        split
        · rw [ih]; simp
        · rfl
      case _ => rfl

theorem bubbleUp_length (cmp : T → T → ℤ) (h : List T) (i : ℕ) :
    (bubbleUp cmp h i).length = h.length := by
  rw [bubbleUp]
  split
  case _ hi hp heq1 heq2 =>
    lift_lets
    extract_lets c
    split
    · split
      · rw [bubbleUpAux_length]; simp
      · rw [bubbleUpAux_length]
    · split
      · rw [bubbleUpAux_length]; simp
      · rw [bubbleUpAux_length]
  case _ => rfl

theorem insertCmp_length (cmp : T → T → ℤ) (x : T) :
    ∀ l : List T, (insertCmp cmp x l).length = l.length + 1 := by
  intro l
  induction l with
  | nil => rfl
  | cons y ys ih =>
    rw [insertCmp]
    split
    · simp [ih]
    · simp

theorem selectSort_length (cmp : T → T → ℤ) :
    ∀ l : List T, (selectSort cmp l).length = l.length := by
  intro l
  induction l with
  | nil => rfl
  | cons x xs ih => rw [selectSort, insertCmp_length, ih]; rfl

theorem heapify_length (cmp : T → T → ℤ) (l : List T) :
    (heapify cmp l).length = l.length := by
  rw [heapify]
  generalize (List.range (l.length / 2 + 1)).reverse = idxs
  induction idxs generalizing l with
  | nil => rfl
  | cons i is ih => rw [List.foldl_cons, ih, trickleDown_length]

theorem mkBeamHeap_length (ev : T → T → ℤ) (limit : Option ℕ)
    (el : List T) :
    (mkBeamHeap ev limit el).length =
      match limit with
      | none => el.length
      | some n => min el.length n := by
  rw [mkBeamHeap.eq_def]
  match limit with
  | none => simp [heapify_length]
  | some n =>
    simp only
    split
    · rw [heapify_length]
      simp only [List.length_take, selectSort_length]
      omega
    · rw [heapify_length]
      omega

theorem beamPush_length_cases (cmp : T → T → ℤ) (limit : Option ℕ)
    (h : List T) (e : T) :
    (beamPush cmp limit h e).length = h.length
      ∨ ((beamPush cmp limit h e).length = h.length + 1
          ∧ natLtLim h.length limit = true) := by
  rw [beamPush]
  split
  · left; rfl
  · split
    · next hz =>
      right
      constructor
      · simp [hz]
      · rw [hz]
        match limit with
        | none => rfl
        | some n =>
          simp only [natLtLim]
          have : n ≠ 0 := by
            intro hc
            simp [hc] at *
          simp
          omega
    · split
      · next hlt =>
        right
        exact ⟨by rw [bubbleUp_length]; simp, hlt⟩
      · split
        · split
          case _ h0 heq =>
            split
            · left; simp
            · left; rfl
          case _ => left; rfl
        · lift_lets
          extract_lets maxI
          split
          case _ hm heq =>
            split
            · left
              rw [trickleDown_length, trickleDown_length]
              simp
            · left; rfl
          case _ => left; rfl

theorem beamPush_fits (cmp : T → T → ℤ) (limit : Option ℕ) (h : List T)
    (e : T) (hf : fitsLim h.length limit) :
    fitsLim (beamPush cmp limit h e).length limit := by
  rcases beamPush_length_cases cmp limit h e with h1 | ⟨h1, h2⟩
  · rw [h1]; exact hf
  · rw [h1]
    match limit with
    | none => trivial
    | some n =>
      simp only [natLtLim] at h2
      simp only [fitsLim]
      simp at h2
      omega

theorem beamPop_length_le (cmp : T → T → ℤ) (h : List T) :
    (beamPop cmp h).2.length ≤ h.length := by
  rw [beamPop.eq_def]
  match h with
  | [] => simp
  | x :: rest =>
    simp only
    split
    · split
      · simp only
        rw [trickleDown_length]
        simp [List.length_take]
      · simp
    · simp

theorem beamPop_fits (cmp : T → T → ℤ) (limit : Option ℕ) (h : List T)
    (hf : fitsLim h.length limit) :
    fitsLim (beamPop cmp h).2.length limit := by
  have hle := beamPop_length_le cmp h
  match limit with
  | none => trivial
  | some n =>
    simp only [fitsLim] at hf ⊢
    omega

theorem applyOp_fits (cmp : T → T → ℤ) (limit : Option ℕ) (h : List T)
    (op : BeamOp T) (hf : fitsLim h.length limit) :
    fitsLim (applyOp cmp limit h op).length limit := by
  match op with
  | .push e => exact beamPush_fits cmp limit h e hf
  | .pop => exact beamPop_fits cmp limit h hf

theorem applyOps_fits (cmp : T → T → ℤ) (limit : Option ℕ)
    (ops : List (BeamOp T)) (h : List T) (hf : fitsLim h.length limit) :
    fitsLim (applyOps cmp limit h ops).length limit := by
  rw [applyOps]
  induction ops generalizing h with
  | nil => exact hf
  | cons op rest ih =>
    rw [List.foldl_cons]
    exact ih _ (applyOp_fits cmp limit h op hf)

theorem mkBeamHeap_fits (ev : T → T → ℤ) (limit : Option ℕ)
    (el : List T) : fitsLim (mkBeamHeap ev limit el).length limit := by
  rw [mkBeamHeap_length]
  match limit with
  | none => trivial
  | some n => simp [fitsLim]

end BeamLengthLemmas

theorem denQ_ne_zero (q : ℚ) : ((q.den : ℚ)) ≠ 0 := by
  exact_mod_cast q.den_nz

theorem qAdd_eq (a b : ℚ) : qAdd a b = a + b := by
  rw [qAdd, Rat.mkRat_eq_div]
  push_cast
  conv_rhs => rw [← Rat.num_div_den a, ← Rat.num_div_den b]
  rw [div_add_div _ _ (denQ_ne_zero a) (denQ_ne_zero b)]
  ring_nf

theorem qSub_eq (a b : ℚ) : qSub a b = a - b := by
  rw [qSub, Rat.mkRat_eq_div]
  push_cast
  conv_rhs => rw [← Rat.num_div_den a, ← Rat.num_div_den b]
  rw [div_sub_div _ _ (denQ_ne_zero a) (denQ_ne_zero b)]
  ring_nf

theorem qMul_eq (a b : ℚ) : qMul a b = a * b := by
  rw [qMul, Rat.mkRat_eq_div]
  push_cast
  conv_rhs => rw [← Rat.num_div_den a, ← Rat.num_div_den b]
  rw [div_mul_div_comm]

theorem qCeil_eq (a : ℚ) : qCeil a = ⌈a⌉ := by
  have hd : (0 : ℤ) ≤ (a.den : ℤ) := Int.ofNat_nonneg a.den
  have h2 : ⌈a⌉ = -⌊-a⌋ := by rw [Int.floor_neg]; ring
  rw [qCeil, Int.fdiv_eq_ediv _ hd, h2, Rat.floor_def]
  simp

theorem log2Aux_eq_log2 : ∀ fuel n, n ≤ fuel → log2Aux fuel n = Nat.log2 n := by
  intro fuel
  induction fuel with
  | zero =>
    intro n hn
    interval_cases n
    simp [log2Aux, Nat.log2]
  | succ f ih =>
    intro n hn
    rw [log2Aux, Nat.log2]
    by_cases h2 : n ≥ 2
    · rw [if_pos h2, if_pos h2, ih _ (by omega)]
    · rw [if_neg h2, if_neg h2]

/-- **C1** — the claim fails on the code; this is the demonstration at a
concrete failing input (`code_bug` status).  Constructing a `Beam` with
comparator `(a, b) => a - b`, capacity 10, from `[0, 9, 1, 8, 7]` stores
exactly that valid min-max heap; one `pop` returns the root 0 but leaves
the heap `[7, 9, 1, 8]`: the element stored at index 0 is now 7 even
though the retained element 1 is strictly better — `trickleDown` (via
`getSmallestDescendent`) never considers the root's right child, a leaf
holding 1, because the left child has children.  The spec's heap
invariant ("the stored best element equals the comparator-minimum of the
full retained set") is the intended behaviour of a min-max heap and
matches the spec's own description of extraction; the code is the slip. -/
theorem c1_root_not_min_after_pop :
    mkBeamHeap evSub (some 10) [0, 9, 1, 8, 7] = [0, 9, 1, 8, 7]
      ∧ (beamPop (normCmp evSub)
          (mkBeamHeap evSub (some 10) [0, 9, 1, 8, 7])).1 = some 0
      ∧ (beamPop (normCmp evSub)
          (mkBeamHeap evSub (some 10) [0, 9, 1, 8, 7])).2 = [7, 9, 1, 8]
      ∧ beamFirst ((beamPop (normCmp evSub)
          (mkBeamHeap evSub (some 10) [0, 9, 1, 8, 7])).2) = some 7
      ∧ (1 : ℤ) ∈ (beamPop (normCmp evSub)
          (mkBeamHeap evSub (some 10) [0, 9, 1, 8, 7])).2
      ∧ evSub 1 7 < 0 := by
  refine ⟨by decide, by decide, by decide, by decide, by decide, by decide⟩

/-- **C2** (confirmed).  (1) After construction from any initial elements
and any sequence of push/pop operations the container holds at most the
configured capacity of elements; (2) a push when the capacity is 0 is an
unconditional no-op; (3) with a strict-weak-ordering comparator, a push
of an element `e` that is not strictly better than a worst retained
element `w`, performed while the container is at (or beyond) capacity,
returns the heap unchanged — the retained multiset is exactly
preserved. -/
theorem c2_capacity_bound {T : Type} :
    (∀ (ev : T → T → ℤ) (limit : Option ℕ) (init : List T)
        (ops : List (BeamOp T)),
      fitsLim (applyOps (normCmp ev) limit (mkBeamHeap ev limit init)
        ops).length limit)
    ∧ (∀ (cmp : T → T → ℤ) (h : List T) (e : T),
        beamPush cmp (some 0) h e = h)
    ∧ (∀ (ev : T → T → ℤ) (limit : Option ℕ) (h : List T) (w e : T),
        IsSWO ev → natLtLim h.length limit = false → w ∈ h →
        (∀ x ∈ h, ev x w ≤ 0) → 0 ≤ ev e w →
        beamPush (normCmp ev) limit h e = h) := by
  refine ⟨?_, ?_, ?_⟩
  · intro ev limit init ops
    exact applyOps_fits _ _ _ _ (mkBeamHeap_fits ev limit init)
  · intro cmp h e
    rw [beamPush]
    simp
  · intro ev limit h w e hswo hcap hwmem hmax hew
    rw [beamPush]
    split
    · rfl
    · split
      · next hz =>
        exfalso
        rw [List.length_eq_zero] at hz
        subst hz
        simp at hwmem
      · split
        · next hlt => rw [hcap] at hlt; exact absurd hlt (by simp)
        · split
          · split
            case _ h0 heq =>
              have hmem0 : h0 ∈ h := List.get?_mem heq
              have hge : 0 ≤ ev e h0 :=
                hswo.ge_of_ge_of_le hew (hmax h0 hmem0)
              rw [if_neg]
              simp only [normCmp, beq_iff_eq]
              intro hc
              have : ev e h0 < 0 := Int.sign_eq_neg_one_iff_neg.mp hc
              omega
            case _ => rfl
          · lift_lets
            extract_lets maxI
            split
            case _ hm heq =>
              have hmemm : hm ∈ h := List.get?_mem heq
              have hge : 0 ≤ ev e hm :=
                hswo.ge_of_ge_of_le hew (hmax hm hmemm)
              rw [if_neg]
              simp only [normCmp, beq_iff_eq]
              intro hc
              have : ev e hm < 0 := Int.sign_eq_neg_one_iff_neg.mp hc
              omega
            case _ => rfl

/-- Witness for C2 at concrete inputs: capacity 2 over `ℤ` with the
numeric-difference comparator. -/
theorem c2_capacity_bound_witness :
    fitsLim (applyOps (normCmp evSub) (some 2)
        (mkBeamHeap evSub (some 2) [5, 1, 9])
        [BeamOp.push 4, BeamOp.pop, BeamOp.push 7]).length (some 2)
      ∧ beamPush (normCmp evSub) (some 0) [(3 : ℤ)] 5 = [3]
      ∧ beamPush (normCmp evSub) (some 2) [1, 9] 9 = [1, 9] :=
  ⟨c2_capacity_bound.1 evSub (some 2) [5, 1, 9]
      [BeamOp.push 4, BeamOp.pop, BeamOp.push 7],
   c2_capacity_bound.2.1 (normCmp evSub) [(3 : ℤ)] 5,
   c2_capacity_bound.2.2 evSub (some 2) [1, 9] 9 9 swo_evSub (by decide)
     (by decide) (by decide) (by decide)⟩

section StateLemmas

variable {T : Type}

theorem mkRunState_fields (cfg : RunCfg T) (clock : ℕ → ℚ) (init : List T)
    (s0 : RState T) (h : mkRunState cfg clock init = .ok s0) :
    s0.equivalents = [] ∧ s0.equivSize = 0 ∧ s0.log = []
      ∧ s0.lastImp = none ∧ s0.hasTop = none
      ∧ contFirst s0.pool = some s0.rep ∧ s0.optTime = cfg.totalTime
      ∧ s0.pool = (if cfg.isOptimal.isSome || cfg.beamLimit.isSome then
          Cont.beam (mkBeamHeap cfg.ev cfg.beamLimit init)
        else Cont.arr init) := by
  rw [mkRunState] at h
  split at h
  case isTrue hcond =>
    split at h
    · exact Except.noConfusion h
    · split at h
      case _ r0 hfirst =>
        injection h with h1
        subst h1
        refine ⟨rfl, rfl, rfl, rfl, rfl, hfirst, rfl, ?_⟩
        rw [if_pos hcond]
      case _ => exact Except.noConfusion h
  case isFalse hcond =>
    split at h
    · exact Except.noConfusion h
    · split at h
      case _ r0 hfirst =>
        injection h with h1
        subst h1
        refine ⟨rfl, rfl, rfl, rfl, rfl, hfirst, rfl, ?_⟩
        rw [if_neg hcond]
      case _ => exact Except.noConfusion h

end StateLemmas

section IndMachinery

variable {T : Type} [DecidableEq T]

theorem runInner_ind (cfg : RunCfg T) (clock : ℕ → ℚ) (start limit : ℚ)
    (P : RState T → Prop) (R : RState T → RReason → Prop)
    (hcore : ∀ s s', coreOf s' = coreOf s → P s → P s')
    (hexp : ∀ s t, s.hasTop = some t → P s →
      P { s with
            pool := (cfg.extend t).foldl
              (fun p c => contPush (normCmp cfg.ev) cfg.beamLimit p c) s.pool,
            hasTop := none })
    (hpop : ∀ s c p2, s.hasTop = none →
      contPop (normCmp cfg.ev) s.pool = (some c, p2) → cfg.check c = false →
      P s → P { s with pool := p2, log := s.log ++ [c], hasTop := some c })
    (hpopc : ∀ s c p2, s.hasTop = none →
      contPop (normCmp cfg.ev) s.pool = (some c, p2) → cfg.check c = true →
      P s → P { s with pool := p2, log := s.log ++ [c] })
    (hnext : ∀ s c s', cfg.check c = true →
      processCandidate cfg s c = .next s' → P s → P s')
    (hres_ex : ∀ s, s.hasTop = none → contLength s.pool = 0 → P s →
      R s .exhausted)
    (hres_time : ∀ s s', coreOf s' = coreOf s → P s → R s' .timeLimit)
    (hres_proc : ∀ s c s' r, cfg.check c = true →
      processCandidate cfg s c = .resolve s' r → P s → R s' r) :
    ∀ fuel s, P s →
      (∀ s' r, runInner cfg clock start limit fuel s = .resolve s' r → R s' r)
      ∧ (∀ s', runInner cfg clock start limit fuel s = .suspend s' → P s') := by
  intro fuel
  induction fuel with
  | zero =>
    intro s hP
    constructor
    · intro s' r h
      simp [runInner] at h
    · intro s' h
      simp [runInner] at h
  | succ f ih =>
    intro s hP
    rw [runInner]
    cases htop : s.hasTop with
    | some t =>
      exact ih _ (hexp s t htop hP)
    | none =>
      simp only
      split
      case isTrue hlen =>
        constructor
        · intro s' r h
          injection h with h1 h2
          subst h1
          subst h2
          exact hres_ex s htop hlen hP
        · intro s' h
          exact absurd h (by simp)
      case isFalse hlen =>
        split
        case isTrue htime =>
          split
          case isTrue hterm =>
            constructor
            · intro s' r h
              injection h with h1 h2
              subst h1
              subst h2
              refine hres_time s _ ?_ hP
              simp [coreOf, htop]
            · intro s' h
              exact absurd h (by simp)
          case isFalse hterm =>
            constructor
            · intro s' r h
              exact absurd h (by simp)
            · intro s' h
              injection h with h1
              subst h1
              refine hcore s _ ?_ hP
              simp [coreOf, htop]
        case isFalse htime =>
          split
          case _ c p2 hpopeq =>
            split
            case isTrue hchk =>
              have hchk2 : cfg.check c = false := by
                revert hchk
                simp
              have hP3 := hpop s c p2 htop hpopeq hchk2 hP
              refine ih _ (hcore _ _ ?_ hP3)
              simp [coreOf, htop]
            case isFalse hchk =>
              have hchk2 : cfg.check c = true := by
                revert hchk
                simp
              have hP2 : P { s with pool := p2, log := s.log ++ [c] } :=
                hpopc s c p2 htop hpopeq hchk2 hP
              split
              case _ s3 r hproc =>
                constructor
                · intro s' r' h
                  injection h with h1 h2
                  subst h1
                  subst h2
                  refine hres_proc _ c s3 r hchk2 hproc (hcore _ _ ?_ hP2)
                  simp [coreOf, htop]
                · intro s' h
                  exact absurd h (by simp)
              case _ s3 hproc =>
                refine ih _ (hnext _ c s3 hchk2 hproc (hcore _ _ ?_ hP2))
                simp [coreOf, htop]
          case _ hpopeq =>
            constructor
            · intro s' r h
              exact absurd h (by simp)
            · intro s' h
              exact absurd h (by simp)

theorem runOuter_ind (cfg : RunCfg T) (clock : ℕ → ℚ) (innerFuel : ℕ)
    (P : RState T → Prop) (R : RState T → RReason → Prop)
    (hcore : ∀ s s', coreOf s' = coreOf s → P s → P s')
    (hexp : ∀ s t, s.hasTop = some t → P s →
      P { s with
            pool := (cfg.extend t).foldl
              (fun p c => contPush (normCmp cfg.ev) cfg.beamLimit p c) s.pool,
            hasTop := none })
    (hpop : ∀ s c p2, s.hasTop = none →
      contPop (normCmp cfg.ev) s.pool = (some c, p2) → cfg.check c = false →
      P s → P { s with pool := p2, log := s.log ++ [c], hasTop := some c })
    (hpopc : ∀ s c p2, s.hasTop = none →
      contPop (normCmp cfg.ev) s.pool = (some c, p2) → cfg.check c = true →
      P s → P { s with pool := p2, log := s.log ++ [c] })
    (hnext : ∀ s c s', cfg.check c = true →
      processCandidate cfg s c = .next s' → P s → P s')
    (hres_ex : ∀ s, s.hasTop = none → contLength s.pool = 0 → P s →
      R s .exhausted)
    (hres_time : ∀ s s', coreOf s' = coreOf s → P s → R s' .timeLimit)
    (hres_proc : ∀ s c s' r, cfg.check c = true →
      processCandidate cfg s c = .resolve s' r → P s → R s' r) :
    ∀ fuel s, P s → ∀ s' r,
      runOuter cfg clock innerFuel fuel s = .resolved s' r → R s' r := by
  intro fuel
  induction fuel with
  | zero =>
    intro s hP s' r h
    simp [runOuter] at h
  | succ f ih =>
    intro s hP s' r h
    rw [runOuter] at h
    split at h
    · exact ih _ (hcore s { s with tick := s.tick + 1 } rfl hP) s' r h
    · lift_lets at h
      extract_lets s2 at h
      split at h
      case _ s3 r3 hin =>
        injection h with h1 h2
        subst h1
        subst h2
        exact (runInner_ind cfg clock (clock s.tick)
          (qAdd (clock s.tick) cfg.turnTime) P R hcore hexp hpop hpopc hnext
          hres_ex hres_time hres_proc innerFuel s2 (hcore s s2 rfl hP)).1
          s3 r3 hin
      case _ s3 hin =>
        refine ih _ ?_ s' r h
        exact (runInner_ind cfg clock (clock s.tick)
          (qAdd (clock s.tick) cfg.turnTime) P R hcore hexp hpop hpopc hnext
          hres_ex hres_time hres_proc innerFuel s2 (hcore s s2 rfl hP)).2
          s3 hin
      case _ hin =>
        exact absurd h (by simp)

theorem runOpt_ind (cfg : RunCfg T) (clock : ℕ → ℚ) (iF oF : ℕ)
    (init : List T)
    (P : RState T → Prop) (R : RState T → RReason → Prop)
    (hcore : ∀ s s', coreOf s' = coreOf s → P s → P s')
    (hexp : ∀ s t, s.hasTop = some t → P s →
      P { s with
            pool := (cfg.extend t).foldl
              (fun p c => contPush (normCmp cfg.ev) cfg.beamLimit p c) s.pool,
            hasTop := none })
    (hpop : ∀ s c p2, s.hasTop = none →
      contPop (normCmp cfg.ev) s.pool = (some c, p2) → cfg.check c = false →
      P s → P { s with pool := p2, log := s.log ++ [c], hasTop := some c })
    (hpopc : ∀ s c p2, s.hasTop = none →
      contPop (normCmp cfg.ev) s.pool = (some c, p2) → cfg.check c = true →
      P s → P { s with pool := p2, log := s.log ++ [c] })
    (hnext : ∀ s c s', cfg.check c = true →
      processCandidate cfg s c = .next s' → P s → P s')
    (hres_ex : ∀ s, s.hasTop = none → contLength s.pool = 0 → P s →
      R s .exhausted)
    (hres_time : ∀ s s', coreOf s' = coreOf s → P s → R s' .timeLimit)
    (hres_proc : ∀ s c s' r, cfg.check c = true →
      processCandidate cfg s c = .resolve s' r → P s → R s' r)
    (hinit : ∀ s0, mkRunState cfg clock init = .ok s0 → P s0) :
    ∀ s' r, finalOf (runOpt cfg clock iF oF init) = some (s', r) → R s' r := by
  intro s' r h
  rw [runOpt] at h
  cases hmk : mkRunState cfg clock init with
  | error e =>
    rw [hmk] at h
    simp [Except.map, finalOf] at h
  | ok s0 =>
    rw [hmk] at h
    simp only [Except.map] at h
    cases hout : runOuter cfg clock iF oF s0 with
    | resolved s2 r2 =>
      rw [hout] at h
      simp only [finalOf] at h
      injection h with h1
      injection h1 with h2 h3
      subst h2
      subst h3
      exact runOuter_ind cfg clock iF P R hcore hexp hpop hpopc hnext
        hres_ex hres_time hres_proc oF s0 (hinit s0 hmk) s2 r2 hout
    | nofuel =>
      rw [hout] at h
      simp [finalOf] at h

end IndMachinery

/-- Exhaustive characterization of the scoring step: the four branches of
`processCandidate` as plain nested ifs (no local bindings). -/
theorem processCandidate_spec {T : Type} [DecidableEq T] (cfg : RunCfg T)
    (s : RState T) (c : T) :
    processCandidate cfg s c =
      if cfg.ev c s.rep < 0 then
        if (match cfg.isOptimal with | some f => f c | none => false) then
          StepRes.resolve
            { s with equivalents := [c], bestTime := s.activeTime,
                     lastImp := some c } .optimalFound
        else
          StepRes.next
            { s with rep := c, equivalents := [c],
                     bestTime := s.activeTime, lastImp := some c,
                     optTime :=
                       if cfg.ratioQ = 0 then s.optTime
                       else some (qMul s.activeTime (qSub 2 cfg.ratioQ)) }
      else if cfg.ev c s.rep = 0 ∧ natLtLim s.equivSize cfg.maxSaved then
        if natGtLim (s.equivSize + 1) cfg.bailLim then
          StepRes.resolve
            { s with equivalents := addEquiv s.equivalents c,
                     equivSize := s.equivSize + 1 } .bailed
        else
          StepRes.next
            { s with equivalents := addEquiv s.equivalents c,
                     equivSize := s.equivSize + 1 }
      else StepRes.next s := by
  rw [processCandidate]
  by_cases h1 : cfg.ev c s.rep < 0
  · rw [if_pos h1, if_pos h1]
    cases hor : cfg.isOptimal with
    | some f =>
      by_cases hf : f c = true
      · simp only [hf]
        rfl
      · simp only [Bool.not_eq_true] at hf
        simp only [hf]
        by_cases hr : cfg.ratioQ = 0
        · simp only [if_pos hr]
        · simp only [if_neg hr]
    | none =>
      simp only
      by_cases hr : cfg.ratioQ = 0
      · simp only [if_pos hr]
      · simp only [if_neg hr]
  · rw [if_neg h1, if_neg h1]

/-- **C3** — counterexample (the claim fails on the code).  Running the
spec's scenario 1 (expand `n → n+1` below 3, complete at 3, comparator
`a - b`, capacity 2, initial `{0}`) under a clock that never expires a
turn resolves to `(∅, 0)`: the resolved set is not `{3}` and the active
time is not positive.  The complete state 3 is discarded because
`evaluate(3, representativeBest) = 3 - 0 > 0` — the initial state 0 seeds
`representativeBest` and out-scores the only complete state. -/
theorem c3_cex :
    resolvedPair (runOpt cfgC3 zeroClock 20 2 [0]) = some ([], 0)
      ∧ ([] : List ℤ) ≠ [3]
      ∧ ¬((0 : ℚ) > 0) := by
  refine ⟨by decide, by decide, by decide⟩

/-- **C3** — the amended claim, proved: the scenario resolves with the
empty set and zero active time, after popping exactly `0, 1, 2, 3`. -/
theorem c3_amended :
    resolvedLog (runOpt cfgC3 zeroClock 20 2 [0]) = some [0, 1, 2, 3]
      ∧ resolvedPair (runOpt cfgC3 zeroClock 20 2 [0]) = some ([], 0) := by
  refine ⟨by decide, by decide⟩

/-- **C5** — counterexample (the claim fails on the code).  With an
always-true oracle, `expand(0) = {5}`, `check(n) = (n == 5)` and
comparator `a - b`, the very first complete state popped is 5, yet the
run resolves with the empty set and never consults the oracle: 5 scores
worse than the initial representative 0, so the improvement branch (the
only place the oracle is called) is skipped. -/
theorem c5_cex :
    resolvedLog (runOpt cfgC5 zeroClock 20 2 [0]) = some [0, 5]
      ∧ cfgC5.check 5 = true
      ∧ resolvedPair (runOpt cfgC5 zeroClock 20 2 [0]) = some ([], 0)
      ∧ ([] : List ℤ) ≠ [5] := by
  refine ⟨by decide, by decide, by decide, by decide⟩

/-- **C5** — the amended claim, proved: when the configured oracle
accepts every complete state, the driver terminates on the first popped
complete candidate that compares strictly better than the current
representative-best, resolving immediately (`.optimalFound`) with the
equivalents set exactly `{c}` — no further expansion or scoring happens
(`runInner` propagates a `.resolve` without touching the container). -/
theorem c5_amended {T : Type} [DecidableEq T] (cfg : RunCfg T)
    (f : T → Bool) (s : RState T) (c : T)
    (hor : cfg.isOptimal = some f)
    (hall : ∀ x, cfg.check x = true → f x = true)
    (hc : cfg.check c = true)
    (himp : cfg.ev c s.rep < 0) :
    processCandidate cfg s c =
      .resolve { s with equivalents := [c], bestTime := s.activeTime,
                        lastImp := some c } .optimalFound := by
  rw [processCandidate]
  rw [if_pos himp, hor]
  simp only [hall c hc]
  rfl

/-- Witness for the amended C5 at a concrete input. -/
theorem c5_amended_witness :
    processCandidate cfgC5
        ⟨Cont.beam [], 9, [], 0, 0, 0, none, 0, none, 0, [], none⟩ 5 =
      StepRes.resolve
        ⟨Cont.beam [], 9, [5], 0, 0, 0, none, 0, none, 0, [], some 5⟩
        .optimalFound :=
  c5_amended cfgC5 (fun _ => true) _ 5 rfl (fun x _ => rfl) (by decide)
    (by decide)

/-- **C9** (confirmed).  (1) A strict improvement with
`optimalTimeRatio > 0` either fires the oracle (ending the search) or
records the adaptive deadline `activeTime × (2 − optimalTimeRatio)`;
(2) whenever a turn exceeds its wall-clock limit and the freshly
accumulated active time reaches or passes the deadline (or the total
budget), the loop resolves right there with the current best set;
(3) the accumulated active time never changes in a scoring step, so the
deadline comparison happens exactly when active time is updated. -/
theorem c9_adaptive_deadline {T : Type} [DecidableEq T] :
    (∀ (cfg : RunCfg T) (s : RState T) (c : T),
      0 < cfg.ratioQ → cfg.ev c s.rep < 0 →
      processCandidate cfg s c =
          .resolve { s with equivalents := [c], bestTime := s.activeTime,
                            lastImp := some c } .optimalFound
        ∨ processCandidate cfg s c =
            .next { s with rep := c, equivalents := [c],
                           bestTime := s.activeTime, lastImp := some c,
                           optTime :=
                             some (s.activeTime * (2 - cfg.ratioQ)) })
    ∧ (∀ (cfg : RunCfg T) (clock : ℕ → ℚ) (start limit : ℚ) (fuel : ℕ)
        (s : RState T),
        s.hasTop = none → contLength s.pool ≠ 0 → clock s.tick > limit →
        (qGeLim (s.activeTime + (clock s.tick - start)) cfg.totalTime
          || qGeLim (s.activeTime + (clock s.tick - start)) s.optTime)
            = true →
        runInner cfg clock start limit (fuel + 1) s =
          .resolve
            { s with tick := s.tick + 1,
                     activeTime := s.activeTime + (clock s.tick - start) }
            .timeLimit)
    ∧ (∀ (cfg : RunCfg T) (s : RState T) (c : T),
        (stateOfStep (processCandidate cfg s c)).activeTime
          = s.activeTime) := by
  refine ⟨?_, ?_, ?_⟩
  · intro cfg s c hr himp
    rw [processCandidate]
    rw [if_pos himp]
    cases hor : cfg.isOptimal with
    | some f =>
      by_cases hf : f c = true
      · left
        simp only [hf]
        rfl
      · right
        simp only [Bool.not_eq_true] at hf
        simp only [hf]
        rw [if_neg hr.ne']
        rw [qMul_eq, qSub_eq]
        rfl
    | none =>
      right
      simp only
      rw [if_neg hr.ne']
      rw [qMul_eq, qSub_eq]
      rfl
  · intro cfg clock start limit fuel s htop hlen htime hterm
    rw [runInner]
    rw [htop]
    simp only
    rw [if_neg hlen, if_pos htime]
    rw [qAdd_eq, qSub_eq]
    rw [if_pos hterm]
  · intro cfg s c
    rw [processCandidate_spec]
    repeat' split
    all_goals rfl

/-- Witness for C9 at concrete inputs: (1) an improvement under
`cfgC6` (no oracle, ratio 0.66) records the deadline; (2) a turn that
starts at clock 100 with limit 30 and deadline 50 resolves; (3) scoring
never changes active time. -/
theorem c9_adaptive_deadline_witness :
    (processCandidate cfgC6
          ⟨Cont.beam [], 0, [], 0, 0, 0, none, 0, none, 0, [], none⟩ 3 =
        .resolve ⟨Cont.beam [], 0, [3], 0, 0, 0, none, 0, none, 0, [],
          some 3⟩ .optimalFound
      ∨ processCandidate cfgC6
          ⟨Cont.beam [], 0, [], 0, 0, 0, none, 0, none, 0, [], none⟩ 3 =
        .next ⟨Cont.beam [], 3, [3], 0, 0, 0,
          some (0 * (2 - cfgC6.ratioQ)), 0, none, 0, [], some 3⟩)
      ∧ runInner cfgC6 (fun _ => 100) 0 30 1
          ⟨Cont.arr [1], 0, [], 0, 0, 0, some 50, 0, none, 0, [], none⟩ =
        .resolve ⟨Cont.arr [1], 0, [], 0 + (100 - 0), 0, 0, some 50, 0,
          none, 1, [], none⟩ .timeLimit
      ∧ (stateOfStep (processCandidate cfgC6
          ⟨Cont.beam [], 0, [], 0, 0, 0, none, 0, none, 0, [], none⟩
          3)).activeTime = 0 :=
  ⟨c9_adaptive_deadline.1 cfgC6 _ 3 (by decide) (by decide),
   c9_adaptive_deadline.2.1 cfgC6 (fun _ => 100) 0 30 0 _ rfl (by decide)
     (by decide) (by norm_num [qGeLim]),
   c9_adaptive_deadline.2.2 cfgC6 _ 3⟩

section EquivLemmas

variable {T : Type} [DecidableEq T]

theorem addEquiv_mem (l : List T) (c x : T) :
    x ∈ addEquiv l c ↔ x ∈ l ∨ x = c := by
  rw [addEquiv]
  split
  · next hc =>
    constructor
    · intro h
      exact Or.inl h
    · intro h
      rcases h with h | h
      · exact h
      · rw [h]; exact hc
  · simp

theorem addEquiv_self_mem (l : List T) (c : T) : c ∈ addEquiv l c := by
  rw [addEquiv_mem]
  right
  rfl

theorem addEquiv_mem_of_mem (l : List T) (c x : T) (h : x ∈ l) :
    x ∈ addEquiv l c := by
  rw [addEquiv_mem]
  left
  exact h

theorem addEquiv_length_le (l : List T) (c : T) :
    (addEquiv l c).length ≤ l.length + 1 := by
  rw [addEquiv]
  split
  · omega
  · simp

theorem addEquiv_ne_nil (l : List T) (c : T) : addEquiv l c ≠ [] := by
  intro h
  have := addEquiv_self_mem l c
  rw [h] at this
  simp at this

end EquivLemmas

section CoreLemmas

variable {T : Type}

theorem coreOf_fields {s s' : RState T} (h : coreOf s' = coreOf s) :
    s'.pool = s.pool ∧ s'.rep = s.rep ∧ s'.equivalents = s.equivalents
      ∧ s'.equivSize = s.equivSize ∧ s'.hasTop = s.hasTop
      ∧ s'.log = s.log ∧ s'.lastImp = s.lastImp :=
  ⟨congrArg Core.pool h, congrArg Core.rep h, congrArg Core.equivalents h,
   congrArg Core.equivSize h, congrArg Core.hasTop h, congrArg Core.log h,
   congrArg Core.lastImp h⟩

end CoreLemmas

/-- **C10** (confirmed).  (1) Whenever a popped complete candidate
compares strictly better than the current representative-best, the
scoring step replaces the equivalents set by exactly `{candidate}` —
`maxSavedEquivalents` is never consulted.  (2) Consequently, in any
resolved run in which at least one strict improvement occurred (the
most recent improving candidate being `b`), the resolved set is
non-empty and contains `b`; when no oracle is configured, `b` is the
final representative-best, which therefore belongs to the resolved set —
even with `maxSavedEquivalents = 0`.  (In an oracle-terminated run the
stored `representativeBest` variable is not updated by the terminal
improvement, but the resolved set still holds the improving candidate,
i.e. the best solution found.) -/
theorem c10_improvement_unconditional {T : Type} [DecidableEq T] :
    (∀ (cfg : RunCfg T) (s : RState T) (c : T),
      cfg.ev c s.rep < 0 →
      (stateOfStep (processCandidate cfg s c)).equivalents = [c])
    ∧ (∀ (cfg : RunCfg T) (clock : ℕ → ℚ) (iF oF : ℕ) (init : List T)
        (s' : RState T) (r : RReason) (b : T),
        finalOf (runOpt cfg clock iF oF init) = some (s', r) →
        s'.lastImp = some b →
        s'.equivalents ≠ [] ∧ b ∈ s'.equivalents
          ∧ (cfg.isOptimal = none → s'.rep = b ∧ s'.rep ∈ s'.equivalents)) := by
  constructor
  · intro cfg s c himp
    rw [processCandidate_spec]
    rw [if_pos himp]
    split
    · rfl
    · rfl
  · intro cfg clock iF oF init s' r b hfin hlast
    have key := runOpt_ind cfg clock iF oF init
      (fun s => ∀ b2, s.lastImp = some b2 → s.rep = b2 ∧ b2 ∈ s.equivalents)
      (fun s _ => ∀ b2, s.lastImp = some b2 →
        b2 ∈ s.equivalents ∧ s.equivalents ≠ []
          ∧ (cfg.isOptimal = none → s.rep = b2))
      ?_ ?_ ?_ ?_ ?_ ?_ ?_ ?_ ?_ s' r hfin
    · rcases key b hlast with ⟨hmem, hne, hrep⟩
      refine ⟨hne, hmem, ?_⟩
      intro hor
      have hrb := hrep hor
      refine ⟨hrb, ?_⟩
      rw [hrb]
      exact hmem
    · intro s s2 hc hP b2 hl
      rcases coreOf_fields hc with ⟨_, h2, h3, _, _, _, h7⟩
      rw [h7] at hl
      rcases hP b2 hl with ⟨ha, hb⟩
      rw [h2, h3]
      exact ⟨ha, hb⟩
    · intro s t _ hP b2 hl
      exact hP b2 hl
    · intro s c p2 _ _ _ hP b2 hl
      exact hP b2 hl
    · intro s c p2 _ _ _ hP b2 hl
      exact hP b2 hl
    · intro s c s2 hchk hproc hP
      rw [processCandidate_spec] at hproc
      split at hproc
      · split at hproc
        · exact absurd hproc (by simp)
        · injection hproc with h1
          subst h1
          intro b2 hl
          injection hl with h2
          subst h2
          exact ⟨rfl, by simp⟩
      · split at hproc
        · split at hproc
          · exact absurd hproc (by simp)
          · injection hproc with h1
            subst h1
            intro b2 hl
            rcases hP b2 hl with ⟨ha, hb⟩
            exact ⟨ha, addEquiv_mem_of_mem _ _ _ hb⟩
        · injection hproc with h1
          subst h1
          exact hP
    · intro s _ _ hP b2 hl
      rcases hP b2 hl with ⟨ha, hb⟩
      exact ⟨hb, by intro hc; rw [hc] at hb; simp at hb, fun _ => ha⟩
    · intro s s2 hc hP b2 hl
      rcases coreOf_fields hc with ⟨_, h2, h3, _, _, _, h7⟩
      rw [h7] at hl
      rcases hP b2 hl with ⟨ha, hb⟩
      rw [h2, h3]
      refine ⟨hb, ?_, fun _ => ha⟩
      intro hcn
      rw [hcn] at hb
      simp at hb
    · intro s c s2 r2 hchk hproc hP
      rw [processCandidate_spec] at hproc
      split at hproc
      · split at hproc
        case _ hfire =>
          injection hproc with h1 h2
          subst h1
          intro b2 hl
          injection hl with h3
          subst h3
          refine ⟨by simp, by simp, ?_⟩
          intro hor
          rw [hor] at hfire
          simp at hfire
        case _ => exact absurd hproc (by simp)
      · split at hproc
        · split at hproc
          case _ hbail =>
            injection hproc with h1 h2
            subst h1
            intro b2 hl
            rcases hP b2 hl with ⟨ha, hb⟩
            refine ⟨addEquiv_mem_of_mem _ _ _ hb, addEquiv_ne_nil _ _,
              fun _ => ha⟩
          case _ => exact absurd hproc (by simp)
        · exact absurd hproc (by simp)
    · intro s0 hmk b2 hl
      rcases mkRunState_fields cfg clock init s0 hmk with ⟨_, _, _, h4, _⟩
      rw [h4] at hl
      exact Option.noConfusion hl

/-- Witness for C10: the `cfgC6` run ends exhausted with `lastImp = 3`,
equivalents `{3}`, representative 3. -/
theorem c10_improvement_unconditional_witness :
    (stateOfStep (processCandidate cfgC6
        ⟨Cont.beam [], 0, [], 0, 0, 0, none, 0, none, 0, [], none⟩
        3)).equivalents = [3]
      ∧ (([3] : List ℤ) ≠ [] ∧ (3 : ℤ) ∈ ([3] : List ℤ)
          ∧ (cfgC6.isOptimal = none →
              (3 : ℤ) = 3 ∧ (3 : ℤ) ∈ ([3] : List ℤ))) :=
  ⟨c10_improvement_unconditional.1 cfgC6 _ 3 (by decide),
   c10_improvement_unconditional.2 cfgC6 zeroClock 20 2 [0]
     ⟨Cont.beam [], 3, [3], 0, 0, 0, some 0, 0, none, 4, [0, 3], some 3⟩
     .exhausted 3 (by decide) rfl⟩

/-- **C6** — the amended claim, proved.  (1) In any resolved run the
returned tied-solution set holds at most `maxSavedEquivalents + 1`
elements (not `maxSavedEquivalents`: the strict-improvement insertion is
not counted against the cap, so with `maxSavedEquivalents = 0` the set
can still hold one element — the most recent improving candidate —
rather than always being empty); (2) with a strict-weak-ordering
comparator every member of the resolved set is a complete solution tied
with the best solution found (the candidate of the most recent strict
improvement, which equals the final representative-best except under
oracle termination); (3) the set is cleared, and reseeded with the
candidate, exactly at strict improvements. -/
theorem c6_equivalents_bound {T : Type} [DecidableEq T] :
    (∀ (cfg : RunCfg T) (clock : ℕ → ℚ) (iF oF : ℕ) (init : List T)
        (s' : RState T) (r : RReason) (m : ℕ),
      finalOf (runOpt cfg clock iF oF init) = some (s', r) →
      cfg.maxSaved = some m →
      s'.equivalents.length ≤ m + 1)
    ∧ (∀ (cfg : RunCfg T) (clock : ℕ → ℚ) (iF oF : ℕ) (init : List T)
        (s' : RState T) (r : RReason),
      IsSWO cfg.ev →
      finalOf (runOpt cfg clock iF oF init) = some (s', r) →
      ∀ x ∈ s'.equivalents, cfg.check x = true ∧ cfg.ev x (bestOf s') = 0)
    ∧ (∀ (cfg : RunCfg T) (s : RState T) (c : T),
      cfg.ev c s.rep < 0 →
      (stateOfStep (processCandidate cfg s c)).equivalents = [c]) := by
  refine ⟨?_, ?_, ?_⟩
  · intro cfg clock iF oF init s' r m hfin hms
    have key := runOpt_ind cfg clock iF oF init
      (fun s => s.equivalents.length ≤ s.equivSize + 1
        ∧ ∀ m2, cfg.maxSaved = some m2 → s.equivSize ≤ m2)
      (fun s _ => s.equivalents.length ≤ s.equivSize + 1
        ∧ ∀ m2, cfg.maxSaved = some m2 → s.equivSize ≤ m2)
      ?_ ?_ ?_ ?_ ?_ ?_ ?_ ?_ ?_ s' r hfin
    · rcases key with ⟨h1, h2⟩
      have := h2 m hms
      omega
    · intro s s2 hc hP
      rcases coreOf_fields hc with ⟨_, _, h3, h4, _, _, _⟩
      rw [h3, h4]
      exact hP
    · intro s t _ hP
      exact hP
    · intro s c p2 _ _ _ hP
      exact hP
    · intro s c p2 _ _ _ hP
      exact hP
    · intro s c s2 hchk hproc hP
      rw [processCandidate_spec] at hproc
      split at hproc
      · split at hproc
        · exact absurd hproc (by simp)
        · injection hproc with h1
          subst h1
          rcases hP with ⟨ha, hb⟩
          refine ⟨by simp, hb⟩
      · split at hproc
        case _ hcond =>
          split at hproc
          · exact absurd hproc (by simp)
          · injection hproc with h1
            subst h1
            rcases hP with ⟨ha, hb⟩
            constructor
            · have := addEquiv_length_le s.equivalents c
              dsimp only
              omega
            · intro m2 hm2
              have hlt := hcond.2
              rw [hm2] at hlt
              simp only [natLtLim] at hlt
              simp at hlt
              dsimp only
              omega
        case _ =>
          injection hproc with h1
          subst h1
          exact hP
    · intro s _ _ hP
      exact hP
    · intro s s2 hc hP
      rcases coreOf_fields hc with ⟨_, _, h3, h4, _, _, _⟩
      rw [h3, h4]
      exact hP
    · intro s c s2 r2 hchk hproc hP
      rw [processCandidate_spec] at hproc
      split at hproc
      · split at hproc
        · injection hproc with h1 h2
          subst h1
          rcases hP with ⟨ha, hb⟩
          refine ⟨by simp, hb⟩
        · exact absurd hproc (by simp)
      · split at hproc
        case _ hcond =>
          split at hproc
          · injection hproc with h1 h2
            subst h1
            rcases hP with ⟨ha, hb⟩
            constructor
            · have := addEquiv_length_le s.equivalents c
              dsimp only
              omega
            · intro m2 hm2
              have hlt := hcond.2
              rw [hm2] at hlt
              simp only [natLtLim] at hlt
              simp at hlt
              dsimp only
              omega
          · exact absurd hproc (by simp)
        · exact absurd hproc (by simp)
    · intro s0 hmk
      rcases mkRunState_fields cfg clock init s0 hmk with ⟨h1, h2, _⟩
      rw [h1, h2]
      exact ⟨by simp, fun m2 _ => Nat.zero_le m2⟩
  · intro cfg clock iF oF init s' r hswo hfin
    have key := runOpt_ind cfg clock iF oF init
      (fun s => (∀ x ∈ s.equivalents,
          cfg.check x = true ∧ cfg.ev x (bestOf s) = 0)
        ∧ ∀ b, s.lastImp = some b → s.rep = b)
      (fun s _ => ∀ x ∈ s.equivalents,
        cfg.check x = true ∧ cfg.ev x (bestOf s) = 0)
      ?_ ?_ ?_ ?_ ?_ ?_ ?_ ?_ ?_ s' r hfin
    · exact key
    · intro s s2 hc hP
      rcases coreOf_fields hc with ⟨_, h2, h3, _, _, _, h7⟩
      rcases hP with ⟨ha, hb⟩
      constructor
      · intro x hx
        rw [h3] at hx
        have := ha x hx
        rw [bestOf, h7, h2]
        exact this
      · intro b hl
        rw [h7] at hl
        rw [h2]
        exact hb b hl
    · intro s t _ hP
      exact hP
    · intro s c p2 _ _ _ hP
      exact hP
    · intro s c p2 _ _ _ hP
      exact hP
    · intro s c s2 hchk hproc hP
      rw [processCandidate_spec] at hproc
      split at hproc
      case _ himp =>
        split at hproc
        · exact absurd hproc (by simp)
        · injection hproc with h1
          subst h1
          constructor
          · intro x hx
            simp at hx
            subst hx
            exact ⟨hchk, hswo.self_eq _⟩
          · intro b hl
            simp only [Option.some.injEq] at hl
            exact hl
      case _ hnimp =>
        split at hproc
        case _ hcond =>
          split at hproc
          · exact absurd hproc (by simp)
          · injection hproc with h1
            subst h1
            rcases hP with ⟨ha, hb⟩
            constructor
            · intro x hx
              rw [addEquiv_mem] at hx
              rcases hx with hx | hx
              · exact ha x hx
              · subst hx
                refine ⟨hchk, ?_⟩
                rw [bestOf]
                cases hl : s.lastImp with
                | some b =>
                  have hrb := hb b hl
                  simp only [Option.getD]
                  rw [← hrb]
                  exact hcond.1
                | none =>
                  simp only [Option.getD]
                  exact hcond.1
            · exact hb
        case _ =>
          injection hproc with h1
          subst h1
          exact hP
    · intro s _ _ hP
      exact hP.1
    · intro s s2 hc hP
      rcases coreOf_fields hc with ⟨_, h2, h3, _, _, _, h7⟩
      intro x hx
      rw [h3] at hx
      have := hP.1 x hx
      rw [bestOf, h7, h2]
      exact this
    · intro s c s2 r2 hchk hproc hP
      rw [processCandidate_spec] at hproc
      split at hproc
      case _ himp =>
        split at hproc
        · injection hproc with h1 h2
          subst h1
          intro x hx
          simp at hx
          subst hx
          exact ⟨hchk, hswo.self_eq _⟩
        · exact absurd hproc (by simp)
      case _ hnimp =>
        split at hproc
        case _ hcond =>
          split at hproc
          · injection hproc with h1 h2
            subst h1
            rcases hP with ⟨ha, hb⟩
            intro x hx
            rw [addEquiv_mem] at hx
            rcases hx with hx | hx
            · exact ha x hx
            · subst hx
              refine ⟨hchk, ?_⟩
              rw [bestOf]
              cases hl : s.lastImp with
              | some b =>
                have hrb := hb b hl
                simp only [Option.getD]
                rw [← hrb]
                exact hcond.1
              | none =>
                simp only [Option.getD]
                exact hcond.1
          · exact absurd hproc (by simp)
        · exact absurd hproc (by simp)
    · intro s0 hmk
      rcases mkRunState_fields cfg clock init s0 hmk with ⟨h1, _, _, h4, _⟩
      constructor
      · intro x hx
        rw [h1] at hx
        simp at hx
      · intro b hl
        rw [h4] at hl
        exact Option.noConfusion hl
  · intro cfg s c himp
    rw [processCandidate_spec]
    rw [if_pos himp]
    split
    · rfl
    · rfl

/-- Witness for the amended C6 at the `cfgC6` run (maxSaved = 0,
resolved set `{3}` of size 1 = 0 + 1, member complete and tied with the
best found). -/
theorem c6_equivalents_bound_witness :
    ([3] : List ℤ).length ≤ 0 + 1
      ∧ (cfgC6.check 3 = true
          ∧ cfgC6.ev 3 (bestOf ⟨Cont.beam [], 3, [3], 0, 0, 0, some 0, 0,
              none, 4, [0, 3], some 3⟩) = 0)
      ∧ (stateOfStep (processCandidate cfgC6
          ⟨Cont.beam [], 0, [], 0, 0, 0, none, 0, none, 0, [], none⟩
          3)).equivalents = [3] :=
  ⟨c6_equivalents_bound.1 cfgC6 zeroClock 20 2 [0]
     ⟨Cont.beam [], 3, [3], 0, 0, 0, some 0, 0, none, 4, [0, 3], some 3⟩
     .exhausted 0 (by decide) rfl,
   c6_equivalents_bound.2.1 cfgC6 zeroClock 20 2 [0]
     ⟨Cont.beam [], 3, [3], 0, 0, 0, some 0, 0, none, 4, [0, 3], some 3⟩
     .exhausted swo_evFlip (by decide) 3 (by decide),
   c6_equivalents_bound.2.2 cfgC6 _ 3 (by decide)⟩

/-- **C6** — counterexample (the claim fails on the code): with
`maxSavedEquivalents = 0`, one strict improvement suffices for the
resolved set to be non-empty — the run under `cfgC6` resolves with
`{3}`, not the empty set the claim requires. -/
theorem c6_cex :
    resolvedPair (runOpt cfgC6 zeroClock 20 2 [0]) = some ([3], 0)
      ∧ ([3] : List ℤ) ≠ [] := by
  refine ⟨by decide, by decide⟩

/-- **C7** (confirmed).  `run` fails synchronously — before any turn is
scheduled and before any pop/expansion/scoring (the error short-circuits
`runOpt` before `runOuter` is ever applied) — exactly when the initial
state set is empty.  The hypothesis `beamLimit ≠ some 0` holds for every
configuration the `Optimizer` constructor can produce (it coerces
non-positive capacities to `Infinity`). -/
theorem c7_empty_initial {T : Type} [DecidableEq T] (cfg : RunCfg T)
    (clock : ℕ → ℚ) (iF oF : ℕ) (init : List T)
    (hbl : cfg.beamLimit ≠ some 0) :
    (init = [] →
      runOpt cfg clock iF oF init = .error "Missing Initial States")
      ∧ (init ≠ [] → isOkB (runOpt cfg clock iF oF init) = true) := by
  constructor
  · intro h
    subst h
    rw [runOpt, mkRunState]
    split
    · have hlen : contLength
          (Cont.beam (mkBeamHeap cfg.ev cfg.beamLimit ([] : List T))) = 0 := by
        show (mkBeamHeap cfg.ev cfg.beamLimit ([] : List T)).length = 0
        rw [mkBeamHeap_length]
        cases cfg.beamLimit with
        | none => rfl
        | some n => simp
      rw [if_pos hlen]
      rfl
    · rfl
  · intro hne
    rw [runOpt, mkRunState]
    split
    · cases hcase : mkBeamHeap cfg.ev cfg.beamLimit init with
      | nil =>
        exfalso
        have hlen := mkBeamHeap_length cfg.ev cfg.beamLimit init
        rw [hcase] at hlen
        simp only [List.length_nil] at hlen
        cases hbl3 : cfg.beamLimit with
        | none =>
          rw [hbl3] at hlen
          simp only at hlen
          exact hne (List.length_eq_zero.mp hlen.symm)
        | some n =>
          rw [hbl3] at hlen
          simp only at hlen
          have hn : n ≠ 0 := fun hc => hbl (by rw [hbl3, hc])
          have h0 : init.length = 0 := by omega
          exact hne (List.length_eq_zero.mp h0)
      | cons x t =>
        rw [if_neg (by simp [contLength])]
        rfl
    · cases init with
      | nil => exact absurd rfl hne
      | cons x t =>
        rw [if_neg (by simp [contLength])]
        rfl

/-- Witness for C7: the empty initial set is rejected; a singleton is
accepted. -/
theorem c7_empty_initial_witness :
    runOpt cfgC3 zeroClock 1 1 ([] : List ℤ)
        = .error "Missing Initial States"
      ∧ isOkB (runOpt cfgC3 zeroClock 1 1 [0]) = true :=
  ⟨(c7_empty_initial cfgC3 zeroClock 1 1 [] (by decide)).1 rfl,
   (c7_empty_initial cfgC3 zeroClock 1 1 [0] (by decide)).2 (by decide)⟩

/-- **C8** — counterexample (the claim fails on the code): the
constructor does not clamp `utilization` into `[0, 1]`; it takes
`Math.min(Math.abs(utilization || 0.5), 1)`.  At `utilization = -1` the
spec's clamping rule yields 0 (so `turnInterval = turnTime / 0 = ∞`),
but the code's effective utilization is 1 and `turnInterval = 30`. -/
theorem c8_cex :
    utilizationVal ({ utilization := some (.num (-1)) } : OptOptions ℤ)
        = .num 1
      ∧ specClampUtilization (some (-1)) = 0
      ∧ (mkOptConfig
          ({ utilization := some (.num (-1)) } : OptOptions ℤ)).turnIntv
          = .num 30
      ∧ (JSNum.num 1) ≠ .num 0 := by
  refine ⟨by decide, by decide, by decide, by decide⟩

/-- **C8** — the amended claim, proved for every options object: the
constructor substitutes defaults per the table — `beamLimit` ≤ 0 or
non-numeric → unbounded, otherwise kept; `turnTime` ≤ 0 or non-finite →
30; `totalTime` ≤ 0 or absent → unbounded; `utilization`: absent, 0 or
`NaN` → 0.5, any other finite value `u` → `min(|u|, 1)` (absolute value,
NOT a clamp — negative values are reflected, not zeroed);
`turnInterval = turnTime / utilization`; `optimalTimeRatio` inside
`[0,1]` kept, outside (or absent) → 0.66.  Every case is a total
function of the options — no configuration value raises an error. -/
theorem c8_defaults {T : Type} (o : OptOptions T) :
    (o.beamLimit = none → (mkOptConfig o).beamLimit = .inf)
  ∧ (o.beamLimit = some .nan → (mkOptConfig o).beamLimit = .inf)
  ∧ (∀ q : ℚ, q ≤ 0 → o.beamLimit = some (.num q) →
      (mkOptConfig o).beamLimit = .inf)
  ∧ (∀ q : ℚ, 0 < q → o.beamLimit = some (.num q) →
      (mkOptConfig o).beamLimit = .num q)
  ∧ (o.turnTime = none → (mkOptConfig o).turnTime = .num 30)
  ∧ (o.turnTime = some .inf → (mkOptConfig o).turnTime = .num 30)
  ∧ (∀ q : ℚ, q ≤ 0 → o.turnTime = some (.num q) →
      (mkOptConfig o).turnTime = .num 30)
  ∧ (∀ q : ℚ, 0 < q → o.turnTime = some (.num q) →
      (mkOptConfig o).turnTime = .num q)
  ∧ (∀ q : ℚ, q ≤ 0 → o.totalTime = some (.num q) →
      (mkOptConfig o).totalTime = .inf)
  ∧ (o.totalTime = none → (mkOptConfig o).totalTime = .inf)
  ∧ (o.utilization = none → utilizationVal o = .num (mkRat 1 2))
  ∧ (o.utilization = some (.num 0) → utilizationVal o = .num (mkRat 1 2))
  ∧ (o.utilization = some .nan → utilizationVal o = .num (mkRat 1 2))
  ∧ (∀ q : ℚ, q ≠ 0 → o.utilization = some (.num q) →
      utilizationVal o = .num (min |q| 1))
  ∧ (mkOptConfig o).turnIntv
      = jsDiv (mkOptConfig o).turnTime (utilizationVal o)
  ∧ (∀ q : ℚ, 0 ≤ q → q ≤ 1 → o.optimalTimeR = some (.num q) →
      (mkOptConfig o).optimalTimeR = .num q)
  ∧ (∀ q : ℚ, (q < 0 ∨ 1 < q) → o.optimalTimeR = some (.num q) →
      (mkOptConfig o).optimalTimeR = .num (mkRat 33 50))
  ∧ (o.optimalTimeR = none →
      (mkOptConfig o).optimalTimeR = .num (mkRat 33 50)) := by
  refine ⟨?_, ?_, ?_, ?_, ?_, ?_, ?_, ?_, ?_, ?_, ?_, ?_, ?_, ?_, ?_, ?_,
    ?_, ?_⟩
  · intro h
    simp [mkOptConfig, numOf, h, JSNum.gt0]
  · intro h
    simp [mkOptConfig, numOf, h, JSNum.gt0]
  · intro q hq h
    simp [mkOptConfig, numOf, h, JSNum.gt0, hq.not_lt]
  · intro q hq h
    simp [mkOptConfig, numOf, h, JSNum.gt0, hq]
  · intro h
    simp [mkOptConfig, numOf, h, JSNum.gt0, JSNum.finiteB]
  · intro h
    simp [mkOptConfig, numOf, h, JSNum.gt0, JSNum.finiteB]
  · intro q hq h
    simp [mkOptConfig, numOf, h, JSNum.gt0, JSNum.finiteB, hq.not_lt]
  · intro q hq h
    simp [mkOptConfig, numOf, h, JSNum.gt0, JSNum.finiteB, hq]
  · intro q hq h
    simp [mkOptConfig, numOf, h, JSNum.gt0, hq.not_lt]
  · intro h
    simp [mkOptConfig, numOf, h, JSNum.gt0]
  · intro h
    simp [utilizationVal, h, JSNum.truthy, JSNum.absJ, jsMin,
      Rat.mkRat_eq_div]
    norm_num
  · intro h
    simp [utilizationVal, h, JSNum.truthy, JSNum.absJ, jsMin,
      Rat.mkRat_eq_div]
    norm_num
  · intro h
    simp [utilizationVal, h, JSNum.truthy, JSNum.absJ, jsMin,
      Rat.mkRat_eq_div]
    norm_num
  · intro q hq h
    have habs : (if q < 0 then -q else q) = |q| := by
      by_cases hq2 : q < 0
      · rw [if_pos hq2, abs_of_neg hq2]
      · rw [if_neg hq2, abs_of_nonneg (not_lt.mp hq2)]
    simp [utilizationVal, h, JSNum.truthy, hq, JSNum.absJ, jsMin, habs,
      min_def]
  · rfl
  · intro q hq0 hq1 h
    simp [mkOptConfig, numOf, h, JSNum.ge0, JSNum.le1, hq0, hq1]
  · intro q hq h
    rcases hq with hq | hq
    · simp [mkOptConfig, numOf, h, JSNum.ge0, JSNum.le1, hq.not_le]
    · simp [mkOptConfig, numOf, h, JSNum.ge0, JSNum.le1, hq.not_le]
  · intro h
    simp [mkOptConfig, numOf, h, JSNum.ge0, JSNum.le1]

/-- Witness for the amended C8 at concrete option records. -/
theorem c8_defaults_witness :
    (mkOptConfig ({ beamLimit := some (.num (-5)) } : OptOptions ℤ)).beamLimit
        = .inf
      ∧ (mkOptConfig ({ turnTime := some .inf } : OptOptions ℤ)).turnTime
          = .num 30
      ∧ utilizationVal ({ utilization := some (.num 2) } : OptOptions ℤ)
          = .num (min |(2 : ℚ)| 1)
      ∧ (mkOptConfig ({ optimalTimeR := some (.num 2) } : OptOptions ℤ)).optimalTimeR
          = .num (mkRat 33 50) :=
  ⟨(c8_defaults ({ beamLimit := some (.num (-5)) } : OptOptions ℤ)).2.2.1
     (-5) (by norm_num) rfl,
   (c8_defaults ({ turnTime := some .inf } : OptOptions ℤ)).2.2.2.2.2.1 rfl,
   (c8_defaults ({ utilization := some (.num 2) } : OptOptions ℤ)
     ).2.2.2.2.2.2.2.2.2.2.2.2.2.1 2 (by norm_num) rfl,
   (c8_defaults ({ optimalTimeR := some (.num 2) } : OptOptions ℤ)
     ).2.2.2.2.2.2.2.2.2.2.2.2.2.2.2.2.1 2 (Or.inr (by norm_num)) rfl⟩

section IndMachinery2

variable {T : Type} [DecidableEq T]

/-- Variant of `runInner_ind` whose scoring obligations cover the pop and
the scoring of a complete candidate as one step: the invariant is only
required to hold again after the candidate has been scored (claim C4's
invariant speaks about the scored log and is briefly violated between the
pop and the score). -/
theorem runInner_ind2 (cfg : RunCfg T) (clock : ℕ → ℚ) (start limit : ℚ)
    (P : RState T → Prop) (R : RState T → RReason → Prop)
    (hcore : ∀ s s', coreOf s' = coreOf s → P s → P s')
    (hexp : ∀ s t, s.hasTop = some t → P s →
      P { s with
            pool := (cfg.extend t).foldl
              (fun p c => contPush (normCmp cfg.ev) cfg.beamLimit p c) s.pool,
            hasTop := none })
    (hpop : ∀ s c p2, s.hasTop = none →
      contPop (normCmp cfg.ev) s.pool = (some c, p2) → cfg.check c = false →
      P s → P { s with pool := p2, log := s.log ++ [c], hasTop := some c })
    (hprocn : ∀ s c p2 s3, s.hasTop = none →
      contPop (normCmp cfg.ev) s.pool = (some c, p2) → cfg.check c = true →
      processCandidate cfg
        { s with tick := s.tick + 1, pool := p2, log := s.log ++ [c] } c
        = .next s3 →
      P s → P s3)
    (hprocr : ∀ s c p2 s3 r, s.hasTop = none →
      contPop (normCmp cfg.ev) s.pool = (some c, p2) → cfg.check c = true →
      processCandidate cfg
        { s with tick := s.tick + 1, pool := p2, log := s.log ++ [c] } c
        = .resolve s3 r →
      P s → R s3 r)
    (hres_ex : ∀ s, s.hasTop = none → contLength s.pool = 0 → P s →
      R s .exhausted)
    (hres_time : ∀ s s', coreOf s' = coreOf s → P s → R s' .timeLimit) :
    ∀ fuel s, P s →
      (∀ s' r, runInner cfg clock start limit fuel s = .resolve s' r → R s' r)
      ∧ (∀ s', runInner cfg clock start limit fuel s = .suspend s' → P s') := by
  intro fuel
  induction fuel with
  | zero =>
    intro s hP
    constructor
    · intro s' r h
      simp [runInner] at h
    · intro s' h
      simp [runInner] at h
  | succ f ih =>
    intro s hP
    rw [runInner]
    cases htop : s.hasTop with
    | some t =>
      exact ih _ (hexp s t htop hP)
    | none =>
      simp only
      split
      case isTrue hlen =>
        constructor
        · intro s' r h
          injection h with h1 h2
          subst h1
          subst h2
          exact hres_ex s htop hlen hP
        · intro s' h
          exact absurd h (by simp)
      case isFalse hlen =>
        split
        case isTrue htime =>
          split
          case isTrue hterm =>
            constructor
            · intro s' r h
              injection h with h1 h2
              subst h1
              subst h2
              refine hres_time s _ ?_ hP
              simp [coreOf, htop]
            · intro s' h
              exact absurd h (by simp)
          case isFalse hterm =>
            constructor
            · intro s' r h
              exact absurd h (by simp)
            · intro s' h
              injection h with h1
              subst h1
              refine hcore s _ ?_ hP
              simp [coreOf, htop]
        case isFalse htime =>
          split
          case _ c p2 hpopeq =>
            split
            case isTrue hchk =>
              have hchk2 : cfg.check c = false := by
                revert hchk
                simp
              have hP3 := hpop s c p2 htop hpopeq hchk2 hP
              refine ih _ (hcore _ _ ?_ hP3)
              simp [coreOf, htop]
            case isFalse hchk =>
              have hchk2 : cfg.check c = true := by
                revert hchk
                simp
              split
              case _ s3 r hproc =>
                constructor
                · intro s' r' h
                  injection h with h1 h2
                  subst h1
                  subst h2
                  refine hprocr s c p2 s3 r htop hpopeq hchk2 ?_ hP
                  rw [← hproc]
                  congr 1
                  simp [htop]
                · intro s' h
                  exact absurd h (by simp)
              case _ s3 hproc =>
                refine ih _ (hprocn s c p2 s3 htop hpopeq hchk2 ?_ hP)
                rw [← hproc]
                congr 1
                simp [htop]
          case _ hpopeq =>
            constructor
            · intro s' r h
              exact absurd h (by simp)
            · intro s' h
              exact absurd h (by simp)

theorem runOuter_ind2 (cfg : RunCfg T) (clock : ℕ → ℚ) (innerFuel : ℕ)
    (P : RState T → Prop) (R : RState T → RReason → Prop)
    (hcore : ∀ s s', coreOf s' = coreOf s → P s → P s')
    (hexp : ∀ s t, s.hasTop = some t → P s →
      P { s with
            pool := (cfg.extend t).foldl
              (fun p c => contPush (normCmp cfg.ev) cfg.beamLimit p c) s.pool,
            hasTop := none })
    (hpop : ∀ s c p2, s.hasTop = none →
      contPop (normCmp cfg.ev) s.pool = (some c, p2) → cfg.check c = false →
      P s → P { s with pool := p2, log := s.log ++ [c], hasTop := some c })
    (hprocn : ∀ s c p2 s3, s.hasTop = none →
      contPop (normCmp cfg.ev) s.pool = (some c, p2) → cfg.check c = true →
      processCandidate cfg
        { s with tick := s.tick + 1, pool := p2, log := s.log ++ [c] } c
        = .next s3 →
      P s → P s3)
    (hprocr : ∀ s c p2 s3 r, s.hasTop = none →
      contPop (normCmp cfg.ev) s.pool = (some c, p2) → cfg.check c = true →
      processCandidate cfg
        { s with tick := s.tick + 1, pool := p2, log := s.log ++ [c] } c
        = .resolve s3 r →
      P s → R s3 r)
    (hres_ex : ∀ s, s.hasTop = none → contLength s.pool = 0 → P s →
      R s .exhausted)
    (hres_time : ∀ s s', coreOf s' = coreOf s → P s → R s' .timeLimit) :
    ∀ fuel s, P s → ∀ s' r,
      runOuter cfg clock innerFuel fuel s = .resolved s' r → R s' r := by
  intro fuel
  induction fuel with
  | zero =>
    intro s hP s' r h
    simp [runOuter] at h
  | succ f ih =>
    intro s hP s' r h
    rw [runOuter] at h
    split at h
    · exact ih _ (hcore s { s with tick := s.tick + 1 } rfl hP) s' r h
    · lift_lets at h
      extract_lets s2 at h
      split at h
      case _ s3 r3 hin =>
        injection h with h1 h2
        subst h1
        subst h2
        exact (runInner_ind2 cfg clock (clock s.tick)
          (qAdd (clock s.tick) cfg.turnTime) P R hcore hexp hpop hprocn
          hprocr hres_ex hres_time innerFuel s2 (hcore s s2 rfl hP)).1
          s3 r3 hin
      case _ s3 hin =>
        refine ih _ ?_ s' r h
        exact (runInner_ind2 cfg clock (clock s.tick)
          (qAdd (clock s.tick) cfg.turnTime) P R hcore hexp hpop hprocn
          hprocr hres_ex hres_time innerFuel s2 (hcore s s2 rfl hP)).2
          s3 hin
      case _ hin =>
        exact absurd h (by simp)

theorem runOpt_ind2 (cfg : RunCfg T) (clock : ℕ → ℚ) (iF oF : ℕ)
    (init : List T)
    (P : RState T → Prop) (R : RState T → RReason → Prop)
    (hcore : ∀ s s', coreOf s' = coreOf s → P s → P s')
    (hexp : ∀ s t, s.hasTop = some t → P s →
      P { s with
            pool := (cfg.extend t).foldl
              (fun p c => contPush (normCmp cfg.ev) cfg.beamLimit p c) s.pool,
            hasTop := none })
    (hpop : ∀ s c p2, s.hasTop = none →
      contPop (normCmp cfg.ev) s.pool = (some c, p2) → cfg.check c = false →
      P s → P { s with pool := p2, log := s.log ++ [c], hasTop := some c })
    (hprocn : ∀ s c p2 s3, s.hasTop = none →
      contPop (normCmp cfg.ev) s.pool = (some c, p2) → cfg.check c = true →
      processCandidate cfg
        { s with tick := s.tick + 1, pool := p2, log := s.log ++ [c] } c
        = .next s3 →
      P s → P s3)
    (hprocr : ∀ s c p2 s3 r, s.hasTop = none →
      contPop (normCmp cfg.ev) s.pool = (some c, p2) → cfg.check c = true →
      processCandidate cfg
        { s with tick := s.tick + 1, pool := p2, log := s.log ++ [c] } c
        = .resolve s3 r →
      P s → R s3 r)
    (hres_ex : ∀ s, s.hasTop = none → contLength s.pool = 0 → P s →
      R s .exhausted)
    (hres_time : ∀ s s', coreOf s' = coreOf s → P s → R s' .timeLimit)
    (hinit : ∀ s0, mkRunState cfg clock init = .ok s0 → P s0) :
    ∀ s' r, finalOf (runOpt cfg clock iF oF init) = some (s', r) → R s' r := by
  intro s' r h
  rw [runOpt] at h
  cases hmk : mkRunState cfg clock init with
  | error e =>
    rw [hmk] at h
    simp [Except.map, finalOf] at h
  | ok s0 =>
    rw [hmk] at h
    simp only [Except.map] at h
    cases hout : runOuter cfg clock iF oF s0 with
    | resolved s2 r2 =>
      rw [hout] at h
      simp only [finalOf] at h
      injection h with h1
      injection h1 with h2 h3
      subst h2
      subst h3
      exact runOuter_ind2 cfg clock iF P R hcore hexp hpop hprocn hprocr
        hres_ex hres_time oF s0 (hinit s0 hmk) s2 r2 hout
    | nofuel =>
      rw [hout] at h
      simp [finalOf] at h

end IndMachinery2

section C4Defs

variable {T : Type}

/-- The exhaustive-mode loop invariant (claim C4): the container is the
plain array; every initial state, and every expansion of a logged
incomplete state, is still owed to the search; every stored equivalent is
a complete solution tied with the representative; no logged complete
solution beats the representative; with unbounded `maxSavedEquivalents`
every logged complete solution tied with the representative is stored;
and while no equivalent is stored the representative is still the initial
one.  `r0` is `partials[0]`. -/
def ExInv (cfg : RunCfg T) (init : List T) (r0 : T) (s : RState T) : Prop :=
  (∃ l, s.pool = Cont.arr l)
  ∧ (∀ x ∈ init, x ∈ asetOf cfg s)
  ∧ (∀ x ∈ s.log, cfg.check x = false → ∀ y ∈ cfg.extend x, y ∈ asetOf cfg s)
  ∧ (∀ x ∈ s.equivalents, cfg.check x = true ∧ cfg.ev x s.rep = 0)
  ∧ (∀ x ∈ s.log, cfg.check x = true → 0 ≤ cfg.ev x s.rep)
  ∧ (cfg.maxSaved = none → ∀ x ∈ s.log, cfg.check x = true →
       cfg.ev x s.rep = 0 → x ∈ s.equivalents)
  ∧ (s.equivalents = [] → s.rep = r0)
  ∧ (∀ x ∈ s.equivalents, x ∈ s.log)

end C4Defs

section ArrContLemmas

variable {T : Type}

/-- Pushing a list of elements into the plain-array container appends
them in order. -/
theorem arr_foldl_push (cmp : T → T → ℤ) (lim : Option ℕ) :
    ∀ (ns l : List T),
      ns.foldl (fun p c => contPush cmp lim p c) (Cont.arr l)
        = Cont.arr (l ++ ns)
  | [], l => by simp
  | n :: ns, l => by
    rw [List.foldl_cons]
    show ns.foldl (fun p c => contPush cmp lim p c) (Cont.arr (l ++ [n])) = _
    rw [arr_foldl_push cmp lim ns (l ++ [n])]
    simp

/-- A successful pop from the plain-array container removes and returns
the last element. -/
theorem arr_pop_char (cmp : T → T → ℤ) (l : List T) (c : T) (p2 : Cont T)
    (h : contPop cmp (Cont.arr l) = (some c, p2)) :
    p2 = Cont.arr l.dropLast ∧ l = l.dropLast ++ [c] := by
  rw [contPop] at h
  cases hl : l.getLast? with
  | none =>
    rw [hl] at h
    simp at h
  | some x =>
    rw [hl] at h
    injection h with h1 h2
    injection h1 with h3
    subst h3
    obtain ⟨ys, hys⟩ := List.getLast?_eq_some_iff.mp hl
    subst hys
    rw [List.dropLast_concat]
    rw [List.dropLast_concat] at h2
    exact ⟨h2.symm, rfl⟩

/-- `asetOf` in array mode with a pending expansion. -/
theorem asetOf_arr_some (cfg : RunCfg T) (s : RState T) (l : List T) (t : T)
    (hp : s.pool = Cont.arr l) (ht : s.hasTop = some t) :
    asetOf cfg s = s.log ++ l ++ cfg.extend t := by
  rw [asetOf, hp, ht]
  simp [contElems]

/-- `asetOf` in array mode with no pending expansion. -/
theorem asetOf_arr_none (cfg : RunCfg T) (s : RState T) (l : List T)
    (hp : s.pool = Cont.arr l) (ht : s.hasTop = none) :
    asetOf cfg s = s.log ++ l := by
  rw [asetOf, hp, ht]
  simp [contElems]

/-- Membership in the owed set survives popping the last array element
into the log when the popped element carries no pending expansion. -/
theorem aset_pop_mem (cfg : RunCfg T) (s s2 : RState T) (l : List T) (c : T)
    (hl : s.pool = Cont.arr l) (ht : s.hasTop = none)
    (hlast : l = l.dropLast ++ [c])
    (hp2 : s2.pool = Cont.arr l.dropLast) (hlog : s2.log = s.log ++ [c])
    (ht2 : s2.hasTop = none) :
    ∀ x, x ∈ asetOf cfg s → x ∈ asetOf cfg s2 := by
  intro x hx
  rw [asetOf_arr_none cfg s l hl ht, hlast] at hx
  rw [asetOf_arr_none cfg s2 l.dropLast hp2 ht2, hlog]
  simp only [List.mem_append, List.mem_singleton] at hx ⊢
  tauto

/-- Membership in the owed set survives popping the last array element
into the log when the popped element's expansion is pending. -/
theorem aset_pop_mem_top (cfg : RunCfg T) (s s2 : RState T) (l : List T)
    (c : T) (hl : s.pool = Cont.arr l) (ht : s.hasTop = none)
    (hlast : l = l.dropLast ++ [c])
    (hp2 : s2.pool = Cont.arr l.dropLast) (hlog : s2.log = s.log ++ [c])
    (ht2 : s2.hasTop = some c) :
    ∀ x, x ∈ asetOf cfg s → x ∈ asetOf cfg s2 := by
  intro x hx
  rw [asetOf_arr_none cfg s l hl ht, hlast] at hx
  rw [asetOf_arr_some cfg s2 l.dropLast c hp2 ht2, hlog]
  simp only [List.mem_append, List.mem_singleton] at hx ⊢
  tauto

end ArrContLemmas

section ExInvLemmas

variable {T : Type}

/-- The exhaustive-mode invariant only reads core fields. -/
theorem exInv_core (cfg : RunCfg T) (init : List T) (r0 : T)
    (s s2 : RState T) (hc : coreOf s2 = coreOf s)
    (hP : ExInv cfg init r0 s) : ExInv cfg init r0 s2 := by
  obtain ⟨hpool, hrep, heqv, hsz, htop, hlog, himp⟩ := coreOf_fields hc
  have haset : asetOf cfg s2 = asetOf cfg s := by
    rw [asetOf, asetOf, hpool, hlog, htop]
  simp only [ExInv] at hP ⊢
  rw [hpool, hrep, heqv, hlog, haset]
  exact hP

/-- The exhaustive-mode invariant survives draining a pending expansion
into the array container. -/
theorem exInv_expand (cfg : RunCfg T) (init : List T) (r0 : T)
    (s s2 : RState T) (l : List T) (t : T)
    (hl : s.pool = Cont.arr l) (ht : s.hasTop = some t)
    (hp2 : s2.pool = Cont.arr (l ++ cfg.extend t)) (hlog : s2.log = s.log)
    (ht2 : s2.hasTop = none) (hrep : s2.rep = s.rep)
    (heqv : s2.equivalents = s.equivalents)
    (hP : ExInv cfg init r0 s) : ExInv cfg init r0 s2 := by
  simp only [ExInv] at hP ⊢
  obtain ⟨_, h2, h3, h4, h5, h6, h7, h8⟩ := hP
  have hmm : ∀ x, x ∈ asetOf cfg s → x ∈ asetOf cfg s2 := by
    intro x hx
    rw [asetOf_arr_some cfg s l t hl ht] at hx
    rw [asetOf_arr_none cfg s2 (l ++ cfg.extend t) hp2 ht2, hlog]
    simp only [List.mem_append] at hx ⊢
    tauto
  rw [hrep, heqv, hlog]
  exact ⟨⟨l ++ cfg.extend t, hp2⟩, fun x hx => hmm x (h2 x hx),
    fun x hx hc y hy => hmm y (h3 x hx hc y hy), h4, h5, h6, h7, h8⟩

/-- The exhaustive-mode invariant survives popping an incomplete
candidate (its expansion becomes pending). -/
theorem exInv_popIncomplete (cfg : RunCfg T) (init : List T) (r0 : T)
    (s s2 : RState T) (l : List T) (c : T)
    (hl : s.pool = Cont.arr l) (ht : s.hasTop = none)
    (hlast : l = l.dropLast ++ [c]) (hchk : cfg.check c = false)
    (hp2 : s2.pool = Cont.arr l.dropLast) (hlog : s2.log = s.log ++ [c])
    (ht2 : s2.hasTop = some c) (hrep : s2.rep = s.rep)
    (heqv : s2.equivalents = s.equivalents)
    (hP : ExInv cfg init r0 s) : ExInv cfg init r0 s2 := by
  simp only [ExInv] at hP ⊢
  obtain ⟨_, h2, h3, h4, h5, h6, h7, h8⟩ := hP
  have hmm := aset_pop_mem_top cfg s s2 l c hl ht hlast hp2 hlog ht2
  rw [hrep, heqv, hlog]
  refine ⟨⟨l.dropLast, hp2⟩, fun x hx => hmm x (h2 x hx), ?_, h4, ?_, ?_,
    h7, ?_⟩
  · intro x hx hcx y hy
    rcases List.mem_append.mp hx with hx | hx
    · exact hmm y (h3 x hx hcx y hy)
    · rw [List.mem_singleton] at hx
      subst hx
      rw [asetOf_arr_some cfg s2 l.dropLast x hp2 ht2]
      exact List.mem_append_right _ hy
  · intro x hx hcx
    rcases List.mem_append.mp hx with hx | hx
    · exact h5 x hx hcx
    · rw [List.mem_singleton] at hx
      subst hx
      rw [hchk] at hcx
      simp at hcx
  · intro hms x hx hcx hev
    rcases List.mem_append.mp hx with hx | hx
    · exact h6 hms x hx hcx hev
    · rw [List.mem_singleton] at hx
      subst hx
      rw [hchk] at hcx
      simp at hcx
  · exact fun x hx => List.mem_append_left _ (h8 x hx)

/-- The exhaustive-mode invariant survives scoring a strictly improving
complete candidate: the candidate becomes the representative and the
sole stored equivalent. -/
theorem exInv_improve (cfg : RunCfg T) (init : List T) (r0 : T)
    (s s2 : RState T) (l : List T) (c : T) (hswo : IsSWO cfg.ev)
    (hl : s.pool = Cont.arr l) (ht : s.hasTop = none)
    (hlast : l = l.dropLast ++ [c]) (hchk : cfg.check c = true)
    (himp : cfg.ev c s.rep < 0)
    (hp2 : s2.pool = Cont.arr l.dropLast) (hlog : s2.log = s.log ++ [c])
    (ht2 : s2.hasTop = none) (hrep : s2.rep = c)
    (heqv : s2.equivalents = [c])
    (hP : ExInv cfg init r0 s) : ExInv cfg init r0 s2 := by
  simp only [ExInv] at hP ⊢
  obtain ⟨_, h2, h3, h4, h5, h6, h7, h8⟩ := hP
  have hmm := aset_pop_mem cfg s s2 l c hl ht hlast hp2 hlog ht2
  rw [hrep, heqv, hlog]
  refine ⟨⟨l.dropLast, hp2⟩, fun x hx => hmm x (h2 x hx), ?_, ?_, ?_, ?_,
    ?_, ?_⟩
  · intro x hx hcx y hy
    rcases List.mem_append.mp hx with hx | hx
    · exact hmm y (h3 x hx hcx y hy)
    · rw [List.mem_singleton] at hx
      subst hx
      rw [hchk] at hcx
      simp at hcx
  · intro x hx
    rw [List.mem_singleton] at hx
    subst hx
    exact ⟨hchk, hswo.self_eq x⟩
  · intro x hx hcx
    rcases List.mem_append.mp hx with hx | hx
    · have h9 := hswo.gt_of_ge_of_lt (h5 x hx hcx) himp
      omega
    · rw [List.mem_singleton] at hx
      subst hx
      have h9 := hswo.self_eq x
      omega
  · intro hms x hx hcx hev
    rcases List.mem_append.mp hx with hx | hx
    · exfalso
      have h9 := hswo.lt_of_eq_of_lt hev himp
      have h10 := h5 x hx hcx
      omega
    · exact hx
  · intro h
    simp at h
  · intro x hx
    rw [List.mem_singleton] at hx
    subst hx
    exact List.mem_append_right _ (List.mem_singleton.mpr rfl)

/-- The exhaustive-mode invariant survives scoring a tied complete
candidate that is admitted to the equivalents set. -/
theorem exInv_tie [DecidableEq T] (cfg : RunCfg T) (init : List T)
    (r0 : T) (s s2 : RState T) (l : List T) (c : T)
    (hl : s.pool = Cont.arr l) (ht : s.hasTop = none)
    (hlast : l = l.dropLast ++ [c]) (hchk : cfg.check c = true)
    (htie : cfg.ev c s.rep = 0)
    (hp2 : s2.pool = Cont.arr l.dropLast) (hlog : s2.log = s.log ++ [c])
    (ht2 : s2.hasTop = none) (hrep : s2.rep = s.rep)
    (heqv : s2.equivalents = addEquiv s.equivalents c)
    (hP : ExInv cfg init r0 s) : ExInv cfg init r0 s2 := by
  simp only [ExInv] at hP ⊢
  obtain ⟨_, h2, h3, h4, h5, h6, h7, h8⟩ := hP
  have hmm := aset_pop_mem cfg s s2 l c hl ht hlast hp2 hlog ht2
  rw [hrep, heqv, hlog]
  refine ⟨⟨l.dropLast, hp2⟩, fun x hx => hmm x (h2 x hx), ?_, ?_, ?_, ?_,
    ?_, ?_⟩
  · intro x hx hcx y hy
    rcases List.mem_append.mp hx with hx | hx
    · exact hmm y (h3 x hx hcx y hy)
    · rw [List.mem_singleton] at hx
      subst hx
      rw [hchk] at hcx
      simp at hcx
  · intro x hx
    rcases (addEquiv_mem _ _ _).mp hx with hx | hx
    · exact h4 x hx
    · subst hx
      exact ⟨hchk, htie⟩
  · intro x hx hcx
    rcases List.mem_append.mp hx with hx | hx
    · exact h5 x hx hcx
    · rw [List.mem_singleton] at hx
      subst hx
      omega
  · intro hms x hx hcx hev
    rcases List.mem_append.mp hx with hx | hx
    · exact addEquiv_mem_of_mem _ _ _ (h6 hms x hx hcx hev)
    · rw [List.mem_singleton] at hx
      subst hx
      exact addEquiv_self_mem _ _
  · intro h
    exact absurd h (addEquiv_ne_nil _ _)
  · intro x hx
    rcases (addEquiv_mem _ _ _).mp hx with hx | hx
    · exact List.mem_append_left _ (h8 x hx)
    · subst hx
      exact List.mem_append_right _ (List.mem_singleton.mpr rfl)

/-- The exhaustive-mode invariant survives scoring a complete candidate
that is discarded (it neither improves nor is admitted as a tie). -/
theorem exInv_keep (cfg : RunCfg T) (init : List T) (r0 : T)
    (s s2 : RState T) (l : List T) (c : T)
    (hl : s.pool = Cont.arr l) (ht : s.hasTop = none)
    (hlast : l = l.dropLast ++ [c]) (hchk : cfg.check c = true)
    (hge : 0 ≤ cfg.ev c s.rep)
    (hnt : cfg.maxSaved = none → cfg.ev c s.rep ≠ 0)
    (hp2 : s2.pool = Cont.arr l.dropLast) (hlog : s2.log = s.log ++ [c])
    (ht2 : s2.hasTop = none) (hrep : s2.rep = s.rep)
    (heqv : s2.equivalents = s.equivalents)
    (hP : ExInv cfg init r0 s) : ExInv cfg init r0 s2 := by
  simp only [ExInv] at hP ⊢
  obtain ⟨_, h2, h3, h4, h5, h6, h7, h8⟩ := hP
  have hmm := aset_pop_mem cfg s s2 l c hl ht hlast hp2 hlog ht2
  rw [hrep, heqv, hlog]
  refine ⟨⟨l.dropLast, hp2⟩, fun x hx => hmm x (h2 x hx), ?_, h4, ?_, ?_,
    h7, ?_⟩
  · intro x hx hcx y hy
    rcases List.mem_append.mp hx with hx | hx
    · exact hmm y (h3 x hx hcx y hy)
    · rw [List.mem_singleton] at hx
      subst hx
      rw [hchk] at hcx
      simp at hcx
  · intro x hx hcx
    rcases List.mem_append.mp hx with hx | hx
    · exact h5 x hx hcx
    · rw [List.mem_singleton] at hx
      subst hx
      exact hge
  · intro hms x hx hcx hev
    rcases List.mem_append.mp hx with hx | hx
    · exact h6 hms x hx hcx hev
    · rw [List.mem_singleton] at hx
      subst hx
      exact absurd hev (hnt hms)
  · exact fun x hx => List.mem_append_left _ (h8 x hx)

end ExInvLemmas

/-- **C4** — counterexample (the claim fails on the code).  In exhaustive
mode (no oracle, unbounded capacity, unbounded total time) with
`expand(0) = {1, 2}`, `expand(1) = {5}`, states 1 and 2 complete, and the
`a - b` comparator, the run pops exactly `0, 2, 1` and resolves with
`(∅, 0)`: state 5 is reachable via the expansion function (it is an
expansion of the visited state 1) but is never visited, because complete
states are not expanded; and the resolved set is empty rather than the
comparator-optimal complete solution `{1}` encountered during the search,
because both complete states score worse than the initial representative
0. -/
theorem c4_cex :
    resolvedLog (runOpt cfgC4 zeroClock 20 2 [0]) = some [0, 2, 1]
      ∧ (5 : ℤ) ∈ cfgC4.extend 1
      ∧ (5 : ℤ) ∉ ([0, 2, 1] : List ℤ)
      ∧ resolvedPair (runOpt cfgC4 zeroClock 20 2 [0]) = some ([], 0)
      ∧ cfgC4.check 1 = true ∧ cfgC4.check 2 = true
      ∧ cfgC4.ev 1 2 < 0
      ∧ ([] : List ℤ) ≠ [1] := by
  refine ⟨by decide, by decide, by decide, by decide, by decide, by decide,
    by decide, by decide⟩

/-- **C4** — the amended claim, proved: in exhaustive mode (no oracle,
unbounded capacity) a run that resolves by exhaustion has (a) popped
every state reachable from the initial set through expansion of
*incomplete* states (descendants of complete states are never visited),
and (b), when `maxSavedEquivalents` is unbounded, resolved with exactly
the comparator-optimal complete solutions *relative to the running
representative*: if the resolved set is non-empty it holds exactly the
popped complete candidates that are comparator-optimal among all popped
complete candidates, and if it is empty every popped complete candidate
scores strictly worse than the initial representative `partials[0]`. -/
theorem c4_exhaustive {T : Type} [DecidableEq T] (cfg : RunCfg T)
    (clock : ℕ → ℚ) (iF oF : ℕ) (init : List T) (r0 : T) (s' : RState T)
    (hor : cfg.isOptimal = none) (hbl : cfg.beamLimit = none)
    (hswo : IsSWO cfg.ev) (h0 : init.head? = some r0)
    (hfin : finalOf (runOpt cfg clock iF oF init)
      = some (s', RReason.exhausted)) :
    (∀ x, ReachI cfg init x → x ∈ s'.log)
      ∧ (cfg.maxSaved = none →
          (s'.equivalents ≠ [] →
            ∀ x, x ∈ s'.equivalents ↔
              x ∈ s'.log ∧ cfg.check x = true ∧
                ∀ y ∈ s'.log, cfg.check y = true → cfg.ev x y ≤ 0)
          ∧ (s'.equivalents = [] →
              ∀ x ∈ s'.log, cfg.check x = true → 0 < cfg.ev x r0)) := by
  have key : ExInv cfg init r0 s'
      ∧ (RReason.exhausted = RReason.exhausted →
          s'.hasTop = none ∧ contLength s'.pool = 0) := by
    refine runOpt_ind2 cfg clock iF oF init (ExInv cfg init r0)
      (fun s r => ExInv cfg init r0 s
        ∧ (r = RReason.exhausted →
            s.hasTop = none ∧ contLength s.pool = 0))
      ?_ ?_ ?_ ?_ ?_ ?_ ?_ ?_ s' RReason.exhausted hfin
    · exact fun s s2 hc hP => exInv_core cfg init r0 s s2 hc hP
    · intro s t htop hP
      obtain ⟨l, hl⟩ := hP.1
      refine exInv_expand cfg init r0 s _ l t hl htop ?_ rfl rfl rfl rfl hP
      show (cfg.extend t).foldl
        (fun p c => contPush (normCmp cfg.ev) cfg.beamLimit p c) s.pool
          = Cont.arr (l ++ cfg.extend t)
      rw [hl, arr_foldl_push]
    · intro s c p2 htop hpoole hchk hP
      obtain ⟨l, hl⟩ := hP.1
      rw [hl] at hpoole
      obtain ⟨hp2, hlast⟩ := arr_pop_char _ l c p2 hpoole
      exact exInv_popIncomplete cfg init r0 s _ l c hl htop hlast hchk
        hp2 rfl rfl rfl rfl hP
    · intro s c p2 s3 htop hpoole hchk hproc hP
      obtain ⟨l, hl⟩ := hP.1
      rw [hl] at hpoole
      obtain ⟨hp2, hlast⟩ := arr_pop_char _ l c p2 hpoole
      rw [processCandidate_spec] at hproc
      split at hproc
      case isTrue himp =>
        rw [hor] at hproc
        split at hproc
        case isTrue hfire => simp at hfire
        case isFalse hfire =>
          injection hproc with h9
          subst h9
          exact exInv_improve cfg init r0 s _ l c hswo hl htop hlast hchk
            himp hp2 rfl htop rfl rfl hP
      case isFalse himp =>
        split at hproc
        case isTrue htie =>
          split at hproc
          case isTrue hbail => exact StepRes.noConfusion hproc
          case isFalse hbail =>
            injection hproc with h9
            subst h9
            exact exInv_tie cfg init r0 s _ l c hl htop hlast hchk htie.1
              hp2 rfl htop rfl rfl hP
        case isFalse htie =>
          injection hproc with h9
          subst h9
          have himp2 : ¬cfg.ev c s.rep < 0 := himp
          have htie2 : ¬(cfg.ev c s.rep = 0
              ∧ natLtLim s.equivSize cfg.maxSaved = true) := htie
          refine exInv_keep cfg init r0 s _ l c hl htop hlast hchk
            (by omega) ?_ hp2 rfl htop rfl rfl hP
          intro hms hev
          apply htie2
          refine ⟨hev, ?_⟩
          rw [hms]
          rfl
    · intro s c p2 s3 r htop hpoole hchk hproc hP
      obtain ⟨l, hl⟩ := hP.1
      rw [hl] at hpoole
      obtain ⟨hp2, hlast⟩ := arr_pop_char _ l c p2 hpoole
      rw [processCandidate_spec] at hproc
      split at hproc
      case isTrue himp =>
        rw [hor] at hproc
        split at hproc
        case isTrue hfire => simp at hfire
        case isFalse hfire => exact StepRes.noConfusion hproc
      case isFalse himp =>
        split at hproc
        case isTrue htie =>
          split at hproc
          case isTrue hbail =>
            injection hproc with h9 h10
            subst h9
            subst h10
            refine ⟨exInv_tie cfg init r0 s _ l c hl htop hlast hchk htie.1
              hp2 rfl htop rfl rfl hP, ?_⟩
            intro h
            exact RReason.noConfusion h
          case isFalse hbail => exact StepRes.noConfusion hproc
        case isFalse htie => exact StepRes.noConfusion hproc
    · intro s htop hlen hP
      exact ⟨hP, fun _ => ⟨htop, hlen⟩⟩
    · intro s s2 hc hP
      refine ⟨exInv_core cfg init r0 s s2 hc hP, ?_⟩
      intro h
      exact RReason.noConfusion h
    · intro s0 hmk
      obtain ⟨he, hsz, hlog, himp, htop0, hfirst, hopt, hpool⟩ :=
        mkRunState_fields cfg clock init s0 hmk
      rw [hor, hbl] at hpool
      simp only [Option.isSome_none, Bool.or_self, Bool.false_eq_true,
        if_false] at hpool
      have hrep : s0.rep = r0 := by
        rw [hpool] at hfirst
        simp only [contFirst] at hfirst
        rw [h0] at hfirst
        injection hfirst with h
        exact h.symm
      simp only [ExInv]
      refine ⟨⟨init, hpool⟩, ?_, ?_, ?_, ?_, ?_, ?_, ?_⟩
      · intro x hx
        rw [asetOf_arr_none cfg s0 init hpool htop0, hlog]
        simpa using hx
      · intro x hx
        rw [hlog] at hx
        simp at hx
      · intro x hx
        rw [he] at hx
        simp at hx
      · intro x hx
        rw [hlog] at hx
        simp at hx
      · intro hms x hx
        rw [hlog] at hx
        simp at hx
      · intro _
        exact hrep
      · intro x hx
        rw [he] at hx
        simp at hx
  obtain ⟨hInv, hres⟩ := key
  obtain ⟨htop, hlen⟩ := hres rfl
  simp only [ExInv] at hInv
  obtain ⟨⟨l, hl⟩, h2, h3, h4, h5, h6, h7, h8⟩ := hInv
  have hlnil : l = [] := by
    rw [hl] at hlen
    simpa [contLength] using hlen
  subst hlnil
  have haset : asetOf cfg s' = s'.log := by
    rw [asetOf_arr_none cfg s' [] hl htop]
    simp
  constructor
  · intro x hx
    induction hx with
    | base hmem =>
      have h9 := h2 _ hmem
      rwa [haset] at h9
    | step hre hchk hy ih =>
      have h9 := h3 _ ih hchk _ hy
      rwa [haset] at h9
  · intro hms
    constructor
    · intro hne x
      have hmex : ∃ m, m ∈ s'.equivalents := by
        cases heq : s'.equivalents with
        | nil => exact absurd heq hne
        | cons a as => exact ⟨a, List.mem_cons_self a as⟩
      obtain ⟨m, hm⟩ := hmex
      constructor
      · intro hx
        refine ⟨h8 x hx, (h4 x hx).1, ?_⟩
        intro y hy hcy
        exact hswo.le_of_eq_of_ge (h4 x hx).2 (h5 y hy hcy)
      · rintro ⟨hxlog, hxchk, hopt2⟩
        have hm4 := h4 m hm
        have hxm := hopt2 m (h8 m hm) hm4.1
        have hxrep : cfg.ev x s'.rep = 0 := by
          rcases lt_or_eq_of_le hxm with hlt | heq0
          · exfalso
            have hv := hswo.lt_of_lt_of_eq hlt hm4.2
            have hw := h5 x hxlog hxchk
            omega
          · exact hswo.eq_trans x m s'.rep heq0 hm4.2
        exact h6 hms x hxlog hxchk hxrep
    · intro hnil x hx hcx
      have hrep0 := h7 hnil
      have hge := h5 x hx hcx
      rcases lt_or_eq_of_le hge with hlt | heq0
      · rwa [hrep0] at hlt
      · exfalso
        have h9 := h6 hms x hx hcx heq0.symm
        rw [hnil] at h9
        simp at h9

/-- Witness instantiating `c4_exhaustive` on the `cfgC4w` scenario
(reversed comparator, unbounded `maxSavedEquivalents`): the run pops
`0, 2, 1`, never visits 5 (an expansion of the complete state 1), and
resolves with exactly `{2}` — the comparator-optimal complete solution
among the popped candidates. -/
theorem c4_exhaustive_witness :
    cfgC4w.isOptimal = none ∧ cfgC4w.beamLimit = none ∧ IsSWO cfgC4w.ev
      ∧ ([(0 : ℤ)].head? = some 0)
      ∧ finalOf (runOpt cfgC4w zeroClock 30 2 [0])
          = some (⟨Cont.arr [], 2, [2], 0, 0, 0, some 0, 0, none, 5,
              [0, 2, 1], some 2⟩, RReason.exhausted)
      ∧ ((∀ x, ReachI cfgC4w [0] x → x ∈ ([0, 2, 1] : List ℤ))
        ∧ (cfgC4w.maxSaved = none →
            (([2] : List ℤ) ≠ [] →
              ∀ x, x ∈ ([2] : List ℤ) ↔
                x ∈ ([0, 2, 1] : List ℤ) ∧ cfgC4w.check x = true ∧
                  ∀ y ∈ ([0, 2, 1] : List ℤ), cfgC4w.check y = true →
                    cfgC4w.ev x y ≤ 0)
            ∧ (([2] : List ℤ) = [] →
                ∀ x ∈ ([0, 2, 1] : List ℤ), cfgC4w.check x = true →
                  0 < cfgC4w.ev x 0))) :=
  ⟨rfl, rfl, swo_evFlip, rfl, by decide,
   c4_exhaustive cfgC4w zeroClock 30 2 [0] 0
     ⟨Cont.arr [], 2, [2], 0, 0, 0, some 0, 0, none, 5, [0, 2, 1], some 2⟩
     rfl rfl swo_evFlip rfl (by decide)⟩

end PBS


